import Mathlib

/-!
Verification of the ffmpeg-video-composer service (`src/server.js`, with the
audio-tempo variant in `src/unnamed/part_001`) against its natural-language
specification.

Strings from the JavaScript source are modelled as `List Char`; the regex
based rewriting of `SubtitleProcessor.modifyAssStyles` is embedded by
specialised matchers that implement exactly the backtracking semantics of the
three concrete regular expressions appearing in the source.  Money quotes of
the embedded source lines are reproduced in comments next to each definition.
-/

namespace VideoComposer

/-! ## Basic character/string utilities -/

/-- Decimal digit test, mirroring the regex class `\d`. -/
def isDig (c : Char) : Bool := '0' ≤ c && c ≤ '9'

/-- Render one decimal digit. -/
def digitChar (n : ℕ) : Char :=
  match n with
  | 0 => '0' | 1 => '1' | 2 => '2' | 3 => '3' | 4 => '4'
  | 5 => '5' | 6 => '6' | 7 => '7' | 8 => '8' | _ => '9'

/-- Render a natural number in decimal, accumulator form; the first argument
is structural fuel (any value `≥ n` gives the exact decimal rendering, see
`natToDigitsAux_fuel`). -/
def natToDigitsAux : ℕ → ℕ → List Char → List Char
  | 0, n, acc => digitChar n :: acc
  | fuel + 1, n, acc =>
    if n < 10 then digitChar n :: acc
    else natToDigitsAux fuel (n / 10) (digitChar (n % 10) :: acc)

/-- Decimal rendering of a natural number (the model of JS number→string
interpolation for the non-negative integers appearing in the source). -/
def natToDigits (n : ℕ) : List Char := natToDigitsAux n n []

theorem natToDigitsAux_fuel :
    ∀ (f1 : ℕ) (n : ℕ) (acc : List Char), n ≤ f1 →
      ∀ f2, n ≤ f2 → natToDigitsAux f1 n acc = natToDigitsAux f2 n acc := by
  intro f1
  induction f1 with
  | zero =>
    intro n acc h1 f2 h2
    have : n = 0 := Nat.le_zero.mp h1
    subst this
    cases f2 with
    | zero => rfl
    | succ f => simp [natToDigitsAux]
  | succ f ih =>
    intro n acc h1 f2 h2
    by_cases hn : n < 10
    · cases f2 with
      | zero =>
        have : n = 0 := Nat.le_zero.mp h2
        subst this
        simp [natToDigitsAux]
      | succ g => simp [natToDigitsAux, hn]
    · have hde : n / 10 ≤ f := by
        have : n / 10 < n := Nat.div_lt_self (by omega) (by omega)
        omega
      cases f2 with
      | zero =>
        have : n = 0 := Nat.le_zero.mp h2
        omega
      | succ g =>
        have hdg : n / 10 ≤ g := by
          have : n / 10 < n := Nat.div_lt_self (by omega) (by omega)
          omega
        simp only [natToDigitsAux, if_neg hn]
        exact ih (n / 10) _ hde g hdg

/-- Parse a digit string to a natural number (the model of JS `Number(size)`
on an all-digits capture). -/
def digitsToNat (l : List Char) : ℕ :=
  l.foldl (fun a c => 10 * a + (c.toNat - 48)) 0

/-- Replace every occurrence of the single character `c` by the string `rep`;
this is the exact semantics of JS `str.replace(/c/g, rep)` for a
single-character pattern (the replacement is not rescanned). -/
def replaceChar (c : Char) (rep : List Char) : List Char → List Char
  | [] => []
  | x :: xs => if x = c then rep ++ replaceChar c rep xs else x :: replaceChar c rep xs

end VideoComposer

namespace VideoComposer

/-! ## Quality presets

Source (`src/server.js` lines 24–43):
```
class QualityPresets {
  static PRESETS = {
    high:  { videoPreset: 'fast',     videoCrf: 18, audioBitrate: '256k', baseWidth: 1080 },
    draft: { videoPreset: 'veryfast', videoCrf: 23, audioBitrate: '192k', baseWidth: 1080 },
  };
  static get(quality) { return this.PRESETS[quality] || this.PRESETS.draft; }
}
```
-/

structure QualityProfile where
  videoPreset : String
  videoCrf : ℕ
  audioBitrate : String
  baseWidth : ℕ
  deriving DecidableEq, Repr

def highProfile : QualityProfile :=
  { videoPreset := "fast", videoCrf := 18, audioBitrate := "256k", baseWidth := 1080 }

def draftProfile : QualityProfile :=
  { videoPreset := "veryfast", videoCrf := 23, audioBitrate := "192k", baseWidth := 1080 }

/-- Result of the JS bracket lookup `this.PRESETS[quality]`: one of the two
declared own properties, a value inherited from `Object.prototype` (tagged by
its property name), or `undefined`. -/
inductive PresetValue where
  | profile : QualityProfile → PresetValue
  | inherited : String → PresetValue
  | undef : PresetValue
  deriving DecidableEq, Repr

/-- The property names a plain object literal inherits from
`Object.prototype` in Node.  The values found at these keys (the constructor
function, the built-in methods, and the result of the `__proto__` accessor)
are all functions or objects, hence truthy. -/
def protoProps : List String :=
  ["constructor", "hasOwnProperty", "isPrototypeOf", "propertyIsEnumerable",
   "toLocaleString", "toString", "valueOf", "__defineGetter__",
   "__defineSetter__", "__lookupGetter__", "__lookupSetter__", "__proto__"]

/-- Lookup in the `PRESETS` object literal: a bracket lookup finds the two
declared own properties first, and otherwise walks the prototype chain, so an
`Object.prototype` property name yields the inherited value; only a name
found nowhere on the chain yields `undefined`. -/
def presetsLookup (quality : String) : PresetValue :=
  if quality = "high" then PresetValue.profile highProfile
  else if quality = "draft" then PresetValue.profile draftProfile
  else if quality ∈ protoProps then PresetValue.inherited quality
  else PresetValue.undef

/-- JS truthiness of the looked-up value: the inherited prototype members are
functions or objects and therefore truthy; only `undefined` is falsy. -/
def presetTruthy : PresetValue → Bool
  | PresetValue.undef => false
  | _ => true

/-- Model of `QualityPresets.get`: `this.PRESETS[quality] || this.PRESETS.draft`.
`||` keeps a truthy left operand — including a value inherited from
`Object.prototype` — and only a falsy lookup (`undefined`) falls back to the
draft profile; the function is total (never throws). -/
def qualityPresetsGet (quality : String) : PresetValue :=
  if presetTruthy (presetsLookup quality) then presetsLookup quality
  else PresetValue.profile draftProfile

end VideoComposer

namespace VideoComposer

/-! ## Escaping of user-controlled text

Source (`src/server.js`):
```
static escapeForFFmpeg(path) {
  return path
    .replace(/\\/g, '\\\\')
    .replace(/'/g, "'\\''")
    .replace(/:/g, '\\:');
}
```
and inside `addTextOverlay`:
```
const escaped = text
  .replace(/\\/g, '\\\\')
  .replace(/'/g, "'\\''")
  .replace(/\n/g, '\\n');
```
-/

/-- Backslash character. -/
def bsC : Char := '\\'

/-- Single-quote character. -/
def sqC : Char := '\''

/-- Newline character. -/
def nlC : Char := '\n'

/-- Replacement for a backslash: two backslashes (JS string `'\\\\'`). -/
def escBackslash : List Char := [bsC, bsC]

/-- Replacement for a single quote: `'\''` (JS string `"'\\''"`). -/
def escQuote : List Char := [sqC, bsC, sqC, sqC]

/-- Replacement for a newline in caption text: backslash then `n`. -/
def escNewline : List Char := [bsC, 'n']

/-- Replacement for a colon in a subtitle path: backslash then colon. -/
def escColon : List Char := [bsC, ':']

/-- Model of the caption-text escaping performed by `FilterBuilder.addTextOverlay`:
three sequential global replaces (backslash, then single quote, then newline). -/
def escapeTextOverlay (t : List Char) : List Char :=
  replaceChar nlC escNewline
    (replaceChar sqC escQuote
      (replaceChar bsC escBackslash t))

/-- Model of `SubtitleProcessor.escapeForFFmpeg`: three sequential global
replaces (backslash, then single quote, then colon). -/
def escapeForFFmpeg (p : List Char) : List Char :=
  replaceChar ':' escColon
    (replaceChar sqC escQuote
      (replaceChar bsC escBackslash p))

/-- Per-character escape map that the sequential replaces of
`escapeTextOverlay` amount to. -/
def textOverlayCharEsc (c : Char) : List Char :=
  if c = bsC then escBackslash
  else if c = sqC then escQuote
  else if c = nlC then escNewline
  else [c]

/-- Per-character escape map that the sequential replaces of
`escapeForFFmpeg` amount to. -/
def ffmpegPathCharEsc (c : Char) : List Char :=
  if c = bsC then escBackslash
  else if c = sqC then escQuote
  else if c = ':' then escColon
  else [c]

/-! ## A scanner for the engine's filter-description argument syntax

In the ffmpeg filter-description mini-language an option value extends until
an unescaped delimiter (`:` separates options, `,` and `;` separate filters,
`[` / `]` delimit labels); a single quote opens a quoted section in which
every character up to the closing quote is literal, and outside quotes a
backslash escapes the next character.  `scanArg s q` scans `s` starting with
in-quote state `q`; it returns `none` if an unescaped delimiter terminates
the argument early (or a dangling escape occurs), otherwise `some q'` with
the final quoting state. -/
def argDelims : List Char := [':', ',', ';', '[', ']']

def scanArg : List Char → Bool → Option Bool
  | [], q => some q
  | c :: cs, true => if c = sqC then scanArg cs false else scanArg cs true
  | c :: cs, false =>
    if c = sqC then scanArg cs true
    else if c = bsC then
      match cs with
      | [] => none
      | _ :: cs2 => scanArg cs2 false
    else if c ∈ argDelims then none
    else scanArg cs false

end VideoComposer

namespace VideoComposer

/-! ## FilterBuilder (`src/server.js` lines 145–205)

```
class FilterBuilder {
  constructor(baseWidth) {
    this.baseWidth = baseWidth;
    this.targetHeight = Math.round(baseWidth * 16 / 9);
    this.currentLabel = '[cv]';
    this.filters = [];
  }
  addBaseFilters() { ... push scale/blur node [bg], push crop node [cv] ... }
  addSubtitles(subtitlePath) { if (!subtitlePath) return this; ... [subbed] ... }
  addTextOverlay(text) { if (!text) return this; ... [final] ... }
  build() { return { filterComplex: this.filters.join(';'), outputLabel: this.currentLabel }; }
}
```
`JS Math.round` rounds half up, which is Mathlib `round` on `ℚ`. -/

structure FilterBuilder where
  baseWidth : ℕ
  targetHeight : ℕ
  currentLabel : List Char
  filters : List (List Char)
  deriving DecidableEq, Repr

/-- Height computed by the constructor: `Math.round(baseWidth * 16 / 9)`. -/
def targetHeightOf (baseWidth : ℕ) : ℕ :=
  (round ((baseWidth : ℚ) * 16 / 9)).toNat

def mkFilterBuilder (baseWidth : ℕ) : FilterBuilder :=
  { baseWidth := baseWidth
    targetHeight := targetHeightOf baseWidth
    currentLabel := "[cv]".toList
    filters := [] }

/-- Node pushed first by `addBaseFilters`: scale to the base width with
engine-computed height (`-2`), square pixels, soft box blur, label `[bg]`. -/
def scaleBlurNode (w : ℕ) : List Char :=
  "[0:v]scale=".toList ++ natToDigits w ++
    ":-2,setsar=1:1,boxblur=luma_radius=10:luma_power=1[bg]".toList

/-- Node pushed second by `addBaseFilters`: centered crop of `w × h` over the
blurred background, label `[cv]`. -/
def cropNode (w h : ℕ) : List Char :=
  "[bg]crop=".toList ++ natToDigits w ++ [':'] ++ natToDigits h ++
    ":(in_w-".toList ++ natToDigits w ++ ")/2:(in_h-".toList ++
    natToDigits h ++ ")/2[cv]".toList

def addBaseFilters (b : FilterBuilder) : FilterBuilder :=
  { b with filters :=
      b.filters ++ [scaleBlurNode b.baseWidth, cropNode b.baseWidth b.targetHeight] }

/-- Subtitle burn-in node: `LABELsubtitles='ESCAPEDPATH'[subbed]`. -/
def subtitlesNode (curLabel escapedPath : List Char) : List Char :=
  curLabel ++ "subtitles=".toList ++ [sqC] ++ escapedPath ++ [sqC] ++ "[subbed]".toList

/-- Model of `addSubtitles`: skipped entirely when no subtitle path is
present (`if (!subtitlePath) return this;` — the processed path produced by
the pipeline is never the empty string, so falsiness coincides with `none`). -/
def addSubtitles (sub : Option (List Char)) (b : FilterBuilder) : FilterBuilder :=
  match sub with
  | none => b
  | some p =>
    { b with
      filters := b.filters ++ [subtitlesNode b.currentLabel (escapeForFFmpeg p)]
      currentLabel := "[subbed]".toList }

/-- Caption drawtext node:
`LABELdrawtext=fontfile=...:text='ESCAPED':x=(w-text_w)/2:y=h-400:...[final]`. -/
def drawtextNode (curLabel escapedText : List Char) : List Char :=
  curLabel ++
    "drawtext=fontfile=/usr/share/fonts/truetype/dejavu/DejaVuSans-Bold.ttf:text=".toList ++
    [sqC] ++ escapedText ++ [sqC] ++
    ":x=(w-text_w)/2:y=h-400:fontsize=56:fontcolor=white:".toList ++
    "box=1:boxcolor=black@0.45:boxborderw=20:line_spacing=20[final]".toList

/-- Model of `addTextOverlay`: skipped entirely when the caption text is
empty (`if (!text) return this;` — the empty string is falsy). -/
def addTextOverlay (text : List Char) (b : FilterBuilder) : FilterBuilder :=
  if text = [] then b
  else
    { b with
      filters := b.filters ++ [drawtextNode b.currentLabel (escapeTextOverlay text)]
      currentLabel := "[final]".toList }

/-- Result of `build()`. -/
structure BuiltFilter where
  filterComplex : List Char
  outputLabel : List Char
  deriving DecidableEq, Repr

def buildFilter (b : FilterBuilder) : BuiltFilter :=
  { filterComplex := List.intercalate [';'] b.filters
    outputLabel := b.currentLabel }

/-- The filter chain exactly as `VideoComposer.compose` assembles it
(`src/server.js` lines 300–306):
`new FilterBuilder(w).addBaseFilters().addSubtitles(p).addTextOverlay(s).build()`. -/
def composeFilterChain (baseWidth : ℕ) (sub : Option (List Char))
    (script : List Char) : BuiltFilter :=
  buildFilter (addTextOverlay script (addSubtitles sub (addBaseFilters (mkFilterBuilder baseWidth))))

end VideoComposer

namespace VideoComposer

/-! ## The subtitle style rewrite (`src/server.js` lines 109–131)

```
static modifyAssStyles(assContent) {
  // 1) Font size: sadece fontsize degerini buyut
  assContent = assContent.replace(
    /Style:(.*?),([^,]+),(\d+),/g,
    (match, name, font, size) => {
      const newSize = Math.min(Number(size) + 24, 120);
      return `Style:${name},${font},${newSize},`;
    }
  );
  // 2) MarginV: sadece dikey marjin, yatay marjinleri bozma
  assContent = assContent.replace(
    /Style:(.*?),([^,]*?,){9}(\d+),(\d+),(\d+)/g,
    (match, prefix, skip, marginL, marginR, marginV) => {
      return match.replace(/(\d+)$/, "260"); // sadece MarginV = 260
    }
  );
  // 3) Ayrica ASS icindeki diger MarginV tanimlarini da guvenli sekilde degistir
  assContent = assContent.replace(/(MarginV=)(\d+)/g, '$1260');
  return assContent;
}
```

The three regexes are embedded by specialised matchers.  Notes on the exact
JS semantics implemented here:
* `.` (in the lazy groups `(.*?)`) does not match line terminators;
* `[^,]` does match line terminators;
* a lazy `(.*?)` followed by a literal `,` enumerates, shortest first, the
  prefixes that end immediately before a comma;
* `([^,]+)` / `([^,]*?,)` / `(\d+)` followed by `,` are forced to extend to
  exactly the next comma, so such a field matches iff the whole
  comma-delimited field satisfies the class;
* a trailing `(\d+)` (not followed by anything) takes the maximal digit run;
* `/g` restarts the scan at the end of each match and advances one character
  past positions where no match starts.
-/

/-- Test for characters matched by `.` in a JS regex (no line terminators). -/
def isDotChar (c : Char) : Bool := c ≠ '\n' && c ≠ '\r'

/-- Split at the first comma; `none` when no comma occurs. -/
def splitOnComma : List Char → Option (List Char × List Char)
  | [] => none
  | c :: cs =>
    if c = ',' then some ([], cs)
    else
      match splitOnComma cs with
      | none => none
      | some (f, r) => some (c :: f, r)

/-- Split at the first comma, requiring every preceding character to be
matchable by `.`; `none` when a line terminator intervenes or no comma
occurs.  This is the candidate enumeration step for a lazy `(.*?),`. -/
def splitOnCommaDot : List Char → Option (List Char × List Char)
  | [] => none
  | c :: cs =>
    if c = ',' then some ([], cs)
    else if isDotChar c then
      match splitOnCommaDot cs with
      | none => none
      | some (f, r) => some (c :: f, r)
    else none

theorem splitOnComma_rest_lt {s f r : List Char} (h : splitOnComma s = some (f, r)) :
    r.length < s.length := by
  induction s generalizing f r with
  | nil => simp [splitOnComma] at h
  | cons c cs ih =>
    simp only [splitOnComma] at h
    by_cases hc : c = ','
    · rw [if_pos hc] at h
      simp at h
      obtain ⟨h1, h2⟩ := h
      subst h2
      simp
    · rw [if_neg hc] at h
      cases hsplit : splitOnComma cs with
      | none => rw [hsplit] at h; exact absurd h (by simp)
      | some p =>
        obtain ⟨f0, r0⟩ := p
        rw [hsplit] at h
        simp at h
        obtain ⟨h1, h2⟩ := h
        subst h2
        have := ih hsplit
        simp
        omega

end VideoComposer

namespace VideoComposer

theorem splitOnCommaDot_rest_lt {s f r : List Char}
    (h : splitOnCommaDot s = some (f, r)) : r.length < s.length := by
  induction s generalizing f r with
  | nil => simp [splitOnCommaDot] at h
  | cons c cs ih =>
    simp only [splitOnCommaDot] at h
    by_cases hc : c = ','
    · rw [if_pos hc] at h
      simp at h
      obtain ⟨h1, h2⟩ := h
      subst h2
      simp
    · rw [if_neg hc] at h
      by_cases hd : isDotChar c = true
      · rw [if_pos hd] at h
        cases hsplit : splitOnCommaDot cs with
        | none => rw [hsplit] at h; exact absurd h (by simp)
        | some p =>
          obtain ⟨f0, r0⟩ := p
          rw [hsplit] at h
          simp at h
          obtain ⟨h1, h2⟩ := h
          subst h2
          have := ih hsplit
          simp
          omega
      · rw [if_neg hd] at h
        exact absurd h (by simp)

/-- Successful result of matching the tail `([^,]+),(\d+),` of regex 1 at a
fixed position: the two captured fields and the remaining input. -/
structure P1Tail where
  fontField : List Char
  sizeField : List Char
  rest : List Char
  deriving DecidableEq, Repr

/-- Match `([^,]+),(\d+),` at the start of `s`.  A `([^,]+)` or `(\d+)`
followed by a literal comma is forced to cover exactly the next
comma-delimited field, so the match succeeds iff the first field is nonempty
and the second field is a nonempty digit run. -/
def p1Tail (s : List Char) : Option P1Tail :=
  match splitOnComma s with
  | none => none
  | some (b, s1) =>
    if b = [] then none
    else
      match splitOnComma s1 with
      | none => none
      | some (d, s2) =>
        if d ≠ [] ∧ d.all isDig then some ⟨b, d, s2⟩ else none

/-- Successful match of `(.*?),([^,]+),(\d+),` (the part of regex 1 after the
literal `Style:`). -/
structure P1Match where
  nameCapture : List Char
  fontField : List Char
  sizeField : List Char
  rest : List Char
  deriving DecidableEq, Repr

/-- Match `(.*?),([^,]+),(\d+),` at the start of `s`.  This is the lazy
backtracking order of `(.*?),`: at each character first try to exit the lazy
group at an immediate comma (shortest match first) and run the tail there;
only when the tail fails let the group consume one more character, which must
be matchable by `.` (no line terminator). -/
def p1Search : List Char → Option P1Match
  | [] => none
  | c :: cs =>
    if c = ',' then
      match p1Tail cs with
      | some t => some ⟨[], t.fontField, t.sizeField, t.rest⟩
      | none =>
        match p1Search cs with
        | some m => some ⟨',' :: m.nameCapture, m.fontField, m.sizeField, m.rest⟩
        | none => none
    else if isDotChar c then
      match p1Search cs with
      | some m => some ⟨c :: m.nameCapture, m.fontField, m.sizeField, m.rest⟩
      | none => none
    else none

theorem p1Tail_rest_lt {s : List Char} {t : P1Tail} (h : p1Tail s = some t) :
    t.rest.length < s.length := by
  unfold p1Tail at h
  split at h
  next => exact absurd h (by simp)
  next b s1 h1 =>
    split at h
    next => exact absurd h (by simp)
    next hb =>
      split at h
      next => exact absurd h (by simp)
      next d s2 h2 =>
        split at h
        next hd =>
          injection h with h
          subst h
          have l1 := splitOnComma_rest_lt h1
          have l2 := splitOnComma_rest_lt h2
          show s2.length < s.length
          omega
        next => exact absurd h (by simp)

theorem p1Search_rest_lt {s : List Char} {m : P1Match} :
    p1Search s = some m → m.rest.length < s.length := by
  induction s generalizing m with
  | nil => intro h; exact absurd h (by simp [p1Search])
  | cons c cs ih =>
    intro h
    simp only [p1Search] at h
    by_cases hc : c = ','
    · rw [if_pos hc] at h
      cases ht : p1Tail cs with
      | some t =>
        rw [ht] at h
        injection h with h
        subst h
        have := p1Tail_rest_lt ht
        simp only [List.length_cons]
        omega
      | none =>
        rw [ht] at h
        cases hs : p1Search cs with
        | none => rw [hs] at h; exact absurd h (by simp)
        | some m2 =>
          rw [hs] at h
          injection h with h
          subst h
          have := ih hs
          simp only [List.length_cons]
          omega
    · rw [if_neg hc] at h
      by_cases hd : isDotChar c = true
      · rw [if_pos hd] at h
        cases hs : p1Search cs with
        | none => rw [hs] at h; exact absurd h (by simp)
        | some m2 =>
          rw [hs] at h
          injection h with h
          subst h
          have := ih hs
          simp only [List.length_cons]
          omega
      · rw [if_neg hd] at h
        exact absurd h (by simp)

/-- Literal `Style:` that regexes 1 and 2 must match first. -/
def styleTag : List Char := "Style:".toList

/-- Strip a literal pattern from the front of `s`, returning the remainder. -/
def stripPre : List Char → List Char → Option (List Char)
  | [], s => some s
  | _ :: _, [] => none
  | p :: ps, c :: cs => if c = p then stripPre ps cs else none

theorem stripPre_length {pat s r : List Char} (h : stripPre pat s = some r) :
    r.length + pat.length = s.length := by
  induction pat generalizing s with
  | nil =>
    simp [stripPre] at h
    subst h
    simp
  | cons p ps ih =>
    cases s with
    | nil => exact absurd h (by simp [stripPre])
    | cons c cs =>
      simp only [stripPre] at h
      split at h
      · have := ih h
        simp
        omega
      · exact absurd h (by simp)

/-- Font size cap and delta from the replacement callback:
`Math.min(Number(size) + 24, 120)`. -/
def newFontSize (d : List Char) : List Char :=
  natToDigits (min (digitsToNat d + 24) 120)

def replaceP1 : List Char → List Char
  | [] => []
  | c :: cs =>
    match _h0 : stripPre styleTag (c :: cs) with
    | some rest =>
      match _h1 : p1Search rest with
      | some m =>
        styleTag ++ m.nameCapture ++ [','] ++ m.fontField ++ [','] ++
          newFontSize m.sizeField ++ [','] ++ replaceP1 m.rest
      | none => c :: replaceP1 cs
    | none => c :: replaceP1 cs
  termination_by s => s.length
  decreasing_by
  · have e1 := stripPre_length _h0
    have e2 := p1Search_rest_lt _h1
    have e3 : styleTag.length = 6 := rfl
    simp only [List.length_cons] at e1 ⊢
    omega
  all_goals
    simp only [List.length_cons]
    omega

end VideoComposer

namespace VideoComposer

/-- Consume exactly `n` comma-terminated fields, the semantics of
`([^,]*?,){n}` at a fixed position: each repetition is forced to end at the
very next comma (its content cannot contain one). -/
def chunksN : ℕ → List Char → Option (List (List Char) × List Char)
  | 0, s => some ([], s)
  | n + 1, s =>
    match splitOnComma s with
    | none => none
    | some (g, r) =>
      match chunksN n r with
      | none => none
      | some (gs, r2) => some (g :: gs, r2)

theorem chunksN_rest_le {n : ℕ} {s : List Char} {gs : List (List Char)} {r : List Char}
    (h : chunksN n s = some (gs, r)) : r.length + n ≤ s.length := by
  induction n generalizing s gs r with
  | zero =>
    simp [chunksN] at h
    simp [h.2]
  | succ n ih =>
    simp only [chunksN] at h
    split at h
    next => exact absurd h (by simp)
    next g r1 h1 =>
      split at h
      next => exact absurd h (by simp)
      next gs2 r2 h2 =>
        injection h with h
        have e1 := splitOnComma_rest_lt h1
        have e2 := ih h2
        have : r2 = r := congrArg Prod.snd h
        subst this
        omega

/-- Successful match of `(.*?),([^,]*?,){9}(\d+),(\d+),(\d+)` (the part of
regex 2 after the literal `Style:`): the lazy-group capture, the nine skipped
fields, the two all-digit fields, the trailing digit run, and the remaining
input after the match. -/
structure P2Match where
  headCapture : List Char
  skipped : List (List Char)
  num1 : List Char
  num2 : List Char
  num3 : List Char
  rest : List Char
  deriving DecidableEq, Repr

/-- Match `([^,]*?,){9}(\d+),(\d+),(\d+)` at the start of `s`: nine
comma-terminated fields, then two nonempty all-digit comma-terminated fields,
then a maximal nonempty digit run. -/
def p2Tail (s : List Char) : Option (List (List Char) × List Char × List Char × List Char × List Char) :=
  match chunksN 9 s with
  | none => none
  | some (gs, r) =>
    match splitOnComma r with
    | none => none
    | some (d1, r1) =>
      if d1 ≠ [] ∧ d1.all isDig then
        match splitOnComma r1 with
        | none => none
        | some (d2, r2) =>
          if d2 ≠ [] ∧ d2.all isDig then
            if r2.takeWhile (fun c => isDig c) = [] then none
            else some (gs, d1, d2, r2.takeWhile (fun c => isDig c),
              r2.drop (r2.takeWhile (fun c => isDig c)).length)
          else none
      else none

/-- Match `(.*?),([^,]*?,){9}(\d+),(\d+),(\d+)` at the start of `s`, with
the same lazy backtracking order as `p1Search`: exit the lazy group at the
earliest comma whose tail matches. -/
def p2Search : List Char → Option P2Match
  | [] => none
  | c :: cs =>
    if c = ',' then
      match p2Tail cs with
      | some (gs, d1, d2, d3, r) => some ⟨[], gs, d1, d2, d3, r⟩
      | none =>
        match p2Search cs with
        | some m => some ⟨',' :: m.headCapture, m.skipped, m.num1, m.num2, m.num3, m.rest⟩
        | none => none
    else if isDotChar c then
      match p2Search cs with
      | some m => some ⟨c :: m.headCapture, m.skipped, m.num1, m.num2, m.num3, m.rest⟩
      | none => none
    else none

theorem p2Tail_rest_lt {s : List Char} {gs : List (List Char)} {d1 d2 d3 r : List Char}
    (h : p2Tail s = some (gs, d1, d2, d3, r)) : r.length < s.length := by
  unfold p2Tail at h
  split at h
  next => exact absurd h (by simp)
  next gs0 r0 h1 =>
    split at h
    next => exact absurd h (by simp)
    next e1 r1 h2 =>
      split at h
      next hd1 =>
        split at h
        next => exact absurd h (by simp)
        next e2 r2 h3 =>
          split at h
          next hd2 =>
            split at h
            next => exact absurd h (by simp)
            next hd3 =>
              simp only [Option.some.injEq] at h
              have c1 := chunksN_rest_le h1
              have c2 := splitOnComma_rest_lt h2
              have c3 := splitOnComma_rest_lt h3
              have hr : r = r2.drop (r2.takeWhile (fun c => isDig c)).length := by
                have := h
                simp at this
                exact this.2.2.2.2.symm
              have hlen : (r2.drop (r2.takeWhile (fun c => isDig c)).length).length ≤ r2.length := by
                simp
              rw [hr]
              omega
          next => exact absurd h (by simp)
      next => exact absurd h (by simp)

theorem p2Search_rest_lt {s : List Char} {m : P2Match} :
    p2Search s = some m → m.rest.length < s.length := by
  induction s generalizing m with
  | nil => intro h; exact absurd h (by simp [p2Search])
  | cons c cs ih =>
    intro h
    simp only [p2Search] at h
    by_cases hc : c = ','
    · rw [if_pos hc] at h
      cases ht : p2Tail cs with
      | some q =>
        obtain ⟨gs, d1, d2, d3, r⟩ := q
        rw [ht] at h
        injection h with h
        subst h
        have := p2Tail_rest_lt ht
        simp only [List.length_cons]
        omega
      | none =>
        rw [ht] at h
        cases hs : p2Search cs with
        | none => rw [hs] at h; exact absurd h (by simp)
        | some m2 =>
          rw [hs] at h
          injection h with h
          subst h
          have := ih hs
          simp only [List.length_cons]
          omega
    · rw [if_neg hc] at h
      by_cases hd : isDotChar c = true
      · rw [if_pos hd] at h
        cases hs : p2Search cs with
        | none => rw [hs] at h; exact absurd h (by simp)
        | some m2 =>
          rw [hs] at h
          injection h with h
          subst h
          have := ih hs
          simp only [List.length_cons]
          omega
      · rw [if_neg hd] at h
        exact absurd h (by simp)

/-- Reassemble nine skipped `([^,]*?,)` fields, each with its trailing comma. -/
def chunksRender (gs : List (List Char)) : List Char :=
  (gs.map (fun g => g ++ [','])).flatten

/-- Fixed replacement for the trailing digit run of a regex-2 match:
`match.replace(/(\d+)$/, "260")`. -/
def marginTarget : List Char := "260".toList

/-- Global replace with regex 2,
`/Style:(.*?),([^,]*?,){9}(\d+),(\d+),(\d+)/g`: the whole match is kept
except that its trailing digit run — the last captured `(\d+)` — is replaced
by `260`. -/
def replaceP2 : List Char → List Char
  | [] => []
  | c :: cs =>
    match _h0 : stripPre styleTag (c :: cs) with
    | some rest =>
      match _h1 : p2Search rest with
      | some m =>
        styleTag ++ m.headCapture ++ [','] ++ chunksRender m.skipped ++
          m.num1 ++ [','] ++ m.num2 ++ [','] ++ marginTarget ++ replaceP2 m.rest
      | none => c :: replaceP2 cs
    | none => c :: replaceP2 cs
  termination_by s => s.length
  decreasing_by
  · have e1 := stripPre_length _h0
    have e2 := p2Search_rest_lt _h1
    have e3 : styleTag.length = 6 := rfl
    simp only [List.length_cons] at e1 ⊢
    omega
  all_goals
    simp only [List.length_cons]
    omega

/-- Literal matched first by regex 3. -/
def marginVTag : List Char := "MarginV=".toList

/-- Global replace with regex 3, `/(MarginV=)(\d+)/g` and replacement
`'$1260'`: the digits following a literal `MarginV=` become `260`. -/
def replaceP3 : List Char → List Char
  | [] => []
  | c :: cs =>
    match _h0 : stripPre marginVTag (c :: cs) with
    | some rest =>
      if rest.takeWhile (fun c => isDig c) = [] then c :: replaceP3 cs
      else marginVTag ++ marginTarget ++
        replaceP3 (rest.drop (rest.takeWhile (fun c => isDig c)).length)
    | none => c :: replaceP3 cs
  termination_by s => s.length
  decreasing_by
  · simp only [List.length_cons]
    omega
  · have e1 := stripPre_length _h0
    have e3 : marginVTag.length = 8 := rfl
    have e4 : (rest.drop (rest.takeWhile (fun c => isDig c)).length).length ≤ rest.length := by
      simp
    simp only [List.length_cons] at e1 ⊢
    omega
  · simp only [List.length_cons]
    omega

/-- Model of `SubtitleProcessor.modifyAssStyles` (`src/server.js`): the three
global regex replaces applied in source order. -/
def modifyAssStyles (assContent : List Char) : List Char :=
  replaceP3 (replaceP2 (replaceP1 assContent))

end VideoComposer

namespace VideoComposer

/-! ## Lemmas about escaping -/

theorem replaceChar_append (c : Char) (rep a b : List Char) :
    replaceChar c rep (a ++ b) = replaceChar c rep a ++ replaceChar c rep b := by
  induction a with
  | nil => simp [replaceChar]
  | cons x xs ih =>
    simp only [List.cons_append, replaceChar]
    by_cases h : x = c
    · simp [h, ih]
    · simp [h, ih]

/-- Concatenation of per-character images. -/
def concatMap (f : Char → List Char) (l : List Char) : List Char :=
  (l.map f).flatten

theorem escapeTextOverlay_cons (c : Char) (t : List Char) :
    escapeTextOverlay (c :: t) = textOverlayCharEsc c ++ escapeTextOverlay t := by
  unfold escapeTextOverlay textOverlayCharEsc
  by_cases h1 : c = bsC
  · subst h1
    simp [replaceChar, replaceChar_append, escBackslash, escQuote, escNewline, bsC, sqC, nlC]
  · by_cases h2 : c = sqC
    · subst h2
      simp [replaceChar, replaceChar_append, escBackslash, escQuote, escNewline, bsC, sqC, nlC, h1]
    · by_cases h3 : c = nlC
      · subst h3
        simp [replaceChar, replaceChar_append, escBackslash, escQuote, escNewline, bsC, sqC, nlC, h1, h2]
      · simp [replaceChar, replaceChar_append, h1, h2, h3]

theorem escapeTextOverlay_eq_concatMap (t : List Char) :
    escapeTextOverlay t = concatMap textOverlayCharEsc t := by
  induction t with
  | nil => simp [escapeTextOverlay, replaceChar, concatMap]
  | cons c cs ih => simp [escapeTextOverlay_cons, concatMap, ih]

theorem escapeForFFmpeg_cons (c : Char) (t : List Char) :
    escapeForFFmpeg (c :: t) = ffmpegPathCharEsc c ++ escapeForFFmpeg t := by
  unfold escapeForFFmpeg ffmpegPathCharEsc
  by_cases h1 : c = bsC
  · subst h1
    simp [replaceChar, replaceChar_append, escBackslash, escQuote, escColon, bsC, sqC]
  · by_cases h2 : c = sqC
    · subst h2
      simp [replaceChar, replaceChar_append, escBackslash, escQuote, escColon, bsC, sqC, h1]
    · by_cases h3 : c = ':'
      · subst h3
        simp [replaceChar, replaceChar_append, escBackslash, escQuote, escColon, bsC, sqC, h1, h2]
      · simp [replaceChar, replaceChar_append, h1, h2, h3]

theorem escapeForFFmpeg_eq_concatMap (t : List Char) :
    escapeForFFmpeg t = concatMap ffmpegPathCharEsc t := by
  induction t with
  | nil => simp [escapeForFFmpeg, replaceChar, concatMap]
  | cons c cs ih => simp [escapeForFFmpeg_cons, concatMap, ih]

theorem scanArg_cons_true (c : Char) (cs : List Char) :
    scanArg (c :: cs) true = if c = sqC then scanArg cs false else scanArg cs true := by
  rw [scanArg.eq_def]

theorem scanArg_cons_false (c : Char) (cs : List Char) :
    scanArg (c :: cs) false =
      if c = sqC then scanArg cs true
      else if c = bsC then
        (match cs with
          | [] => none
          | _ :: cs2 => scanArg cs2 false)
      else if c ∈ argDelims then none
      else scanArg cs false := by
  rw [scanArg.eq_def]

theorem scanArg_textOverlayCharEsc (c : Char) (rest : List Char) :
    scanArg (textOverlayCharEsc c ++ rest) true = scanArg rest true := by
  by_cases h1 : c = bsC
  · subst h1
    have e : textOverlayCharEsc bsC = [bsC, bsC] := by decide
    rw [e]
    simp only [List.cons_append, List.nil_append]
    rw [scanArg_cons_true, if_neg (by decide), scanArg_cons_true, if_neg (by decide)]
  · by_cases h2 : c = sqC
    · subst h2
      have e : textOverlayCharEsc sqC = [sqC, bsC, sqC, sqC] := by decide
      rw [e]
      simp only [List.cons_append, List.nil_append]
      rw [scanArg_cons_true, if_pos rfl]
      show scanArg (sqC :: rest) false = scanArg rest true
      rw [scanArg_cons_false, if_pos rfl]
    · by_cases h3 : c = nlC
      · subst h3
        have e : textOverlayCharEsc nlC = [bsC, 'n'] := by decide
        rw [e]
        simp only [List.cons_append, List.nil_append]
        rw [scanArg_cons_true, if_neg (by decide), scanArg_cons_true, if_neg (by decide)]
      · simp only [textOverlayCharEsc, if_neg h1, if_neg h2, if_neg h3, List.cons_append,
          List.nil_append]
        rw [scanArg_cons_true, if_neg h2]

theorem scanArg_ffmpegPathCharEsc (c : Char) (rest : List Char) :
    scanArg (ffmpegPathCharEsc c ++ rest) true = scanArg rest true := by
  by_cases h1 : c = bsC
  · subst h1
    have e : ffmpegPathCharEsc bsC = [bsC, bsC] := by decide
    rw [e]
    simp only [List.cons_append, List.nil_append]
    rw [scanArg_cons_true, if_neg (by decide), scanArg_cons_true, if_neg (by decide)]
  · by_cases h2 : c = sqC
    · subst h2
      have e : ffmpegPathCharEsc sqC = [sqC, bsC, sqC, sqC] := by decide
      rw [e]
      simp only [List.cons_append, List.nil_append]
      rw [scanArg_cons_true, if_pos rfl]
      show scanArg (sqC :: rest) false = scanArg rest true
      rw [scanArg_cons_false, if_pos rfl]
    · by_cases h3 : c = ':'
      · subst h3
        have e : ffmpegPathCharEsc ':' = [bsC, ':'] := by decide
        rw [e]
        simp only [List.cons_append, List.nil_append]
        rw [scanArg_cons_true, if_neg (by decide), scanArg_cons_true, if_neg (by decide)]
      · simp only [ffmpegPathCharEsc, if_neg h1, if_neg h2, if_neg h3, List.cons_append,
          List.nil_append]
        rw [scanArg_cons_true, if_neg h2]

theorem scanArg_concatMap_textOverlay (t rest : List Char) :
    scanArg (concatMap textOverlayCharEsc t ++ rest) true = scanArg rest true := by
  induction t with
  | nil => simp [concatMap]
  | cons c cs ih =>
    simp only [concatMap, List.map_cons, List.flatten_cons, List.append_assoc]
    rw [scanArg_textOverlayCharEsc]
    exact ih

theorem scanArg_concatMap_ffmpegPath (t rest : List Char) :
    scanArg (concatMap ffmpegPathCharEsc t ++ rest) true = scanArg rest true := by
  induction t with
  | nil => simp [concatMap]
  | cons c cs ih =>
    simp only [concatMap, List.map_cons, List.flatten_cons, List.append_assoc]
    rw [scanArg_ffmpegPathCharEsc]
    exact ih

end VideoComposer

namespace VideoComposer

def cvLabel : List Char := "[cv]".toList

def subbedLabel : List Char := "[subbed]".toList

def finalLabel : List Char := "[final]".toList

/-- C9 counterexample: the claim says every quality-tier string outside
{high, draft} resolves to exactly the draft profile.  `constructor` is such a
string (it even survives the handler's `toLowerCase()`), yet the bracket
lookup finds the truthy inherited `Object.prototype.constructor`, which `||`
keeps, so `QualityPresets.get` returns that inherited value and not the draft
profile; `__proto__` behaves the same way. -/
theorem c9_counterexample :
    "constructor" ≠ "high" ∧ "constructor" ≠ "draft" ∧
    qualityPresetsGet "constructor" = PresetValue.inherited "constructor" ∧
    qualityPresetsGet "constructor" ≠ PresetValue.profile draftProfile ∧
    qualityPresetsGet "__proto__" = PresetValue.inherited "__proto__" :=
  ⟨by decide, by decide, by decide, by decide, by decide⟩

/-- C9 (amended): `QualityPresets.get` is total and returns the draft profile
(preset `veryfast`, CRF 23, audio bitrate `192k`, base width 1080) exactly
for the unknown quality strings that are not `Object.prototype` property
names; for an inherited property name the truthy inherited value is returned
instead of any profile. -/
theorem c9_fallback_outside_prototype (q : String)
    (h1 : q ≠ "high") (h2 : q ≠ "draft") :
    (q ∉ protoProps →
      qualityPresetsGet q = PresetValue.profile draftProfile ∧
      draftProfile.videoPreset = "veryfast" ∧ draftProfile.videoCrf = 23 ∧
      draftProfile.audioBitrate = "192k" ∧ draftProfile.baseWidth = 1080) ∧
    (q ∈ protoProps → qualityPresetsGet q = PresetValue.inherited q) := by
  constructor
  · intro h3
    have e : presetsLookup q = PresetValue.undef := by
      simp [presetsLookup, h1, h2, h3]
    refine ⟨by simp [qualityPresetsGet, e, presetTruthy], rfl, rfl, rfl, rfl⟩
  · intro h3
    have e : presetsLookup q = PresetValue.inherited q := by
      simp [presetsLookup, h1, h2, h3]
    simp [qualityPresetsGet, e, presetTruthy]

/-- Witness for the amended C9 at the concrete unknown tier `ultra`, which is
no prototype property name and so does reach the draft fallback. -/
theorem c9_amended_witness :
    "ultra" ≠ "high" ∧ "ultra" ∉ protoProps ∧
    (qualityPresetsGet "ultra" = PresetValue.profile draftProfile ∧
     draftProfile.videoPreset = "veryfast" ∧ draftProfile.videoCrf = 23 ∧
     draftProfile.audioBitrate = "192k" ∧ draftProfile.baseWidth = 1080) :=
  ⟨by decide, by decide,
    (c9_fallback_outside_prototype "ultra" (by decide) (by decide)).1 (by decide)⟩

/-- C3 counterexample: the claim says every occurrence of backslash, single
quote, colon and newline in user-supplied text is replaced by its defined
escape before insertion.  It is false at concrete inputs: the caption-text
escaping of `addTextOverlay` leaves a colon unchanged even though the defined
escape of a colon is backslash-colon, and `escapeForFFmpeg` leaves a newline
unchanged even though the defined escape of a newline is backslash-n. -/
theorem c3_counterexample :
    escapeTextOverlay [':'] = [':'] ∧ escColon ≠ [':'] ∧
    escapeForFFmpeg [nlC] = [nlC] ∧ escNewline ≠ [nlC] := by
  constructor
  · rfl
  constructor
  · decide
  constructor
  · rfl
  · decide

/-- C3 amended: `addTextOverlay` escapes each backslash, single quote and
newline of the caption text (colons are inserted unchanged), and
`escapeForFFmpeg` escapes each backslash, single quote and colon of the
subtitle path (newlines are inserted unchanged) — both equal the per-character
escape maps; and for any input (in particular one containing a single quote
and a newline) the escaped form wrapped in the surrounding single quotes is
consumed as one filter-description argument: no unescaped delimiter
terminates it early, and the quoting state is balanced at the end. -/
theorem c3_escaping_amended :
    (∀ t : List Char, escapeTextOverlay t = concatMap textOverlayCharEsc t) ∧
    (∀ p : List Char, escapeForFFmpeg p = concatMap ffmpegPathCharEsc p) ∧
    (∀ t : List Char, scanArg (sqC :: (escapeTextOverlay t ++ [sqC])) false = some false) ∧
    (∀ p : List Char, scanArg (sqC :: (escapeForFFmpeg p ++ [sqC])) false = some false) := by
  refine ⟨escapeTextOverlay_eq_concatMap, escapeForFFmpeg_eq_concatMap, ?_, ?_⟩
  · intro t
    rw [scanArg_cons_false, if_pos rfl, escapeTextOverlay_eq_concatMap,
      scanArg_concatMap_textOverlay, scanArg_cons_true, if_pos rfl]
    rfl
  · intro p
    rw [scanArg_cons_false, if_pos rfl, escapeForFFmpeg_eq_concatMap,
      scanArg_concatMap_ffmpegPath, scanArg_cons_true, if_pos rfl]
    rfl

end VideoComposer

namespace VideoComposer

/-- Input label of the caption node: the primary label advanced by the
subtitle step when that step ran. -/
def labelAfterSubtitles (sub : Option (List Char)) : List Char :=
  match sub with
  | none => cvLabel
  | some _ => subbedLabel

/-- C4: for every combination of the optional inputs, the built graph is the
fixed-order node list — scale+blur into `[bg]`, centered crop of size
`baseWidth × round(baseWidth·16/9)` into `[cv]`, then the subtitle burn-in
node only when a subtitle path is present, then the caption node only when
the caption text is nonempty; absent steps insert no node, and the output
label is `[cv]` when neither optional step runs, `[subbed]` when only
subtitles run, and `[final]` whenever caption text is present. -/
theorem c4_filter_chain_structure (w : ℕ) (sub : Option (List Char)) (script : List Char) :
    composeFilterChain w sub script =
      { filterComplex :=
          List.intercalate [';']
            ([scaleBlurNode w, cropNode w (targetHeightOf w)] ++
              (match sub with
                | none => []
                | some p => [subtitlesNode cvLabel (escapeForFFmpeg p)]) ++
              (if script = [] then []
               else [drawtextNode (labelAfterSubtitles sub) (escapeTextOverlay script)]))
        outputLabel :=
          if script = [] then labelAfterSubtitles sub else finalLabel } := by
  cases sub with
  | none =>
    by_cases hs : script = []
    · simp [composeFilterChain, mkFilterBuilder, addBaseFilters, addSubtitles,
        addTextOverlay, buildFilter, hs, labelAfterSubtitles, cvLabel]
    · simp [composeFilterChain, mkFilterBuilder, addBaseFilters, addSubtitles,
        addTextOverlay, buildFilter, hs, labelAfterSubtitles, cvLabel, finalLabel]
  | some p =>
    by_cases hs : script = []
    · simp [composeFilterChain, mkFilterBuilder, addBaseFilters, addSubtitles,
        addTextOverlay, buildFilter, hs, labelAfterSubtitles, cvLabel, subbedLabel]
    · simp [composeFilterChain, mkFilterBuilder, addBaseFilters, addSubtitles,
        addTextOverlay, buildFilter, hs, labelAfterSubtitles, cvLabel, subbedLabel, finalLabel]

end VideoComposer

namespace VideoComposer

/-! ## Audio tempo reconciliation (`src/unnamed/part_001` lines 192–229)

```
addAudioProcessing() {
  if (!this.audioDuration || !this.videoDuration) { ... return this; }
  if (this.audioDuration < this.videoDuration) {
    const tempoFactor = this.audioDuration / this.videoDuration;
    if (tempoFactor >= 0.5 && tempoFactor <= 2.0) {
      this.filters.push(`[1:a]atempo=${tempoFactor.toFixed(3)}[aout]`);
      this.audioLabel = '[aout]';
    } else if (tempoFactor < 0.5) {
      let chainedFilters = '[1:a]';
      let remainingFactor = tempoFactor;
      let filterIndex = 0;
      while (remainingFactor < 1.0) {
        const thisFactor = Math.max(0.5, remainingFactor);
        const nextLabel = remainingFactor / thisFactor >= 1.0 ? '[aout]' : `[atmp${filterIndex}]`;
        this.filters.push(`${chainedFilters}atempo=${thisFactor.toFixed(3)}${nextLabel}`);
        chainedFilters = nextLabel;
        remainingFactor = remainingFactor / thisFactor;
        filterIndex++;
      }
      this.audioLabel = '[aout]';
    }
  }
  return this;
}
```
Durations are modelled as exact rationals.  The `while` loop is embedded with
an explicit fuel parameter (`none` = fuel exhausted before the loop exits);
claim C6 shows sufficient fuel always exists, so the fuel is a model artifact
and not a change of semantics. -/

/-- One emitted `atempo` stage: input label, exact factor, output label. -/
structure AtempoStage where
  inLabel : List Char
  factor : ℚ
  outLabel : List Char
  deriving DecidableEq, Repr

/-- Intermediate label `[atmpI]`. -/
def atmpLabel (i : ℕ) : List Char := "[atmp".toList ++ natToDigits i ++ [']']

/-- Final audio label `[aout]`. -/
def aoutLabel : List Char := "[aout]".toList

/-- Initial `chainedFilters` value `[1:a]`. -/
def audioInLabel : List Char := "[1:a]".toList

/-- Raw audio label `1:a` that `audioLabel` is initialised to. -/
def rawAudioLabel : List Char := "1:a".toList

/-- The `while (remainingFactor < 1.0)` loop: each iteration emits one stage
with factor `max(0.5, remainingFactor)`, whose output label is `[aout]` when
the updated remaining factor reaches 1.0 and a fresh `[atmpI]` otherwise. -/
def atempoChainLoop : ℕ → ℚ → List Char → ℕ → Option (List AtempoStage)
  | 0, r, _, _ => if r < 1 then none else some []
  | n + 1, r, chained, idx =>
    if r < 1 then
      match atempoChainLoop n (r / max (1/2 : ℚ) r)
          (if (1:ℚ) ≤ r / max (1/2 : ℚ) r then aoutLabel else atmpLabel idx) (idx + 1) with
      | none => none
      | some rest =>
        some (⟨chained, max (1/2 : ℚ) r,
          if (1:ℚ) ≤ r / max (1/2 : ℚ) r then aoutLabel else atmpLabel idx⟩ :: rest)
    else some []

/-- What `addAudioProcessing` does to the audio side of the builder. -/
inductive AudioPlan where
  | skip : AudioPlan
  | single : ℚ → AudioPlan
  | chained : List AtempoStage → AudioPlan
  deriving DecidableEq, Repr

/-- Model of `addAudioProcessing`, returning the audio plan together with the
resulting `audioLabel`.  A duration of `none` models a failed probe (`null`);
a duration of `0` is also falsy in JS, hence also skips. -/
def addAudioProcessing (videoDuration audioDuration : Option ℚ) (fuel : ℕ) :
    Option (AudioPlan × List Char) :=
  match videoDuration, audioDuration with
  | some vd, some ad =>
    if ad = 0 ∨ vd = 0 then some (AudioPlan.skip, rawAudioLabel)
    else if ad < vd then
      if 1/2 ≤ ad / vd ∧ ad / vd ≤ 2 then some (AudioPlan.single (ad / vd), aoutLabel)
      else if ad / vd < 1/2 then
        match atempoChainLoop fuel (ad / vd) audioInLabel 0 with
        | some stages => some (AudioPlan.chained stages, aoutLabel)
        | none => none
      else some (AudioPlan.skip, rawAudioLabel)
    else some (AudioPlan.skip, rawAudioLabel)
  | _, _ => some (AudioPlan.skip, rawAudioLabel)

/-- Rational value of `x.toFixed(3)` for non-negative `x` (round half up to
three decimals). -/
def toFixed3Q (x : ℚ) : ℚ := (round (1000 * x) : ℤ) / 1000

end VideoComposer

namespace VideoComposer

theorem atempoChainLoop_of_one_le (n : ℕ) (r : ℚ) (lbl : List Char) (idx : ℕ)
    (h : 1 ≤ r) : atempoChainLoop n r lbl idx = some [] := by
  cases n <;> simp [atempoChainLoop, not_lt.mpr h]

theorem range_map_atmp (idx m : ℕ) :
    (List.range (m + 1)).map (fun k => atmpLabel (idx + k)) =
      atmpLabel idx :: (List.range m).map (fun k => atmpLabel (idx + 1 + k)) := by
  rw [List.range_succ_eq_map]
  simp only [List.map_cons, List.map_map, Nat.add_zero]
  congr 1
  apply List.map_congr_left
  intro k _
  simp only [Function.comp_apply]
  congr 1
  omega

theorem atempoChainLoop_spec :
    ∀ (n : ℕ) (r : ℚ) (lbl : List Char) (idx : ℕ) (stages : List AtempoStage),
      0 < r → r < 1 →
      atempoChainLoop n r lbl idx = some stages →
      stages ≠ [] ∧
      (∀ s ∈ stages, 1/2 ≤ s.factor ∧ s.factor < 1) ∧
      (stages.map AtempoStage.factor).prod = r ∧
      stages.map AtempoStage.inLabel =
        lbl :: (List.range (stages.length - 1)).map (fun k => atmpLabel (idx + k)) ∧
      stages.map AtempoStage.outLabel =
        (List.range (stages.length - 1)).map (fun k => atmpLabel (idx + k)) ++ [aoutLabel] ∧
      List.Chain' (fun a b => b.inLabel = a.outLabel) stages := by
  intro n
  induction n with
  | zero =>
    intro r lbl idx stages h0 h1 h
    simp [atempoChainLoop, h1] at h
  | succ n ih =>
    intro r lbl idx stages h0 h1 h
    simp only [atempoChainLoop] at h
    rw [if_pos h1] at h
    by_cases hr : (1/2 : ℚ) ≤ r
    · have e1 : max (1/2 : ℚ) r = r := max_eq_right hr
      have e2 : r / r = 1 := div_self (ne_of_gt h0)
      rw [e1, e2] at h
      rw [if_pos (le_refl (1:ℚ)), atempoChainLoop_of_one_le n 1 aoutLabel (idx+1) (le_refl 1)] at h
      simp at h
      subst h
      refine ⟨by simp, ?_, by simp, by simp, by simp, by simp⟩
      intro s hs
      simp at hs
      subst hs
      exact ⟨hr, h1⟩
    · push_neg at hr
      have e1 : max (1/2 : ℚ) r = 1/2 := max_eq_left (le_of_lt hr)
      have e2 : r / (1/2 : ℚ) = 2 * r := by
        rw [div_eq_mul_inv, one_div, inv_inv]
        ring
      rw [e1, e2] at h
      have hlt : ¬ (1:ℚ) ≤ 2 * r := by
        push_neg
        nlinarith
      rw [if_neg hlt] at h
      cases hrec : atempoChainLoop n (2 * r) (atmpLabel idx) (idx + 1) with
      | none => rw [hrec] at h; exact absurd h (by simp)
      | some rest =>
        rw [hrec] at h
        simp at h
        subst h
        have h2r0 : (0:ℚ) < 2 * r := by nlinarith
        have h2r1 : (2:ℚ) * r < 1 := by nlinarith
        obtain ⟨hne, hfac, hprod, hin, hout, hchain⟩ :=
          ih (2 * r) (atmpLabel idx) (idx + 1) rest h2r0 h2r1 hrec
        obtain ⟨m, hm⟩ : ∃ m, rest.length = m + 1 := by
          cases rest with
          | nil => exact absurd rfl hne
          | cons a l => exact ⟨l.length, by simp⟩
        rw [hm, Nat.add_sub_cancel] at hin hout
        constructor
        · simp
        constructor
        · intro s hs
          simp at hs
          rcases hs with hs | hs
          · subst hs
            exact ⟨by norm_num, by norm_num⟩
          · exact hfac s hs
        constructor
        · simp only [List.map_cons, List.prod_cons, hprod]
          ring
        constructor
        · simp only [List.map_cons, List.length_cons, Nat.add_sub_cancel, hm]
          rw [hin, range_map_atmp]
        constructor
        · simp only [List.map_cons, List.length_cons, Nat.add_sub_cancel, hm]
          rw [hout, range_map_atmp]
          simp
        · rw [List.chain'_cons']
          refine ⟨?_, hchain⟩
          intro b hb
          cases rest with
          | nil => simp at hb
          | cons a l =>
            simp at hb
            subst hb
            simp at hin
            exact hin.1

end VideoComposer

namespace VideoComposer

theorem toFixed3Q_near (x : ℚ) : |toFixed3Q x - x| ≤ 1/2000 := by
  unfold toFixed3Q
  have h := abs_sub_round (1000 * x)
  have e : ((round (1000*x) : ℤ) : ℚ)/1000 - x = -((1000 * x - (round (1000*x) : ℤ)))/1000 := by
    ring
  rw [e, abs_div, abs_neg, abs_of_pos (by norm_num : (0:ℚ) < (1000:ℚ))]
  rw [div_le_iff₀ (by norm_num : (0:ℚ) < (1000:ℚ))]
  calc |1000 * x - ((round (1000*x) : ℤ) : ℚ)| ≤ 1/2 := h
    _ ≤ 1/2000 * 1000 := by norm_num

theorem toFixed3Q_bounds {x : ℚ} (h1 : 1/2 ≤ x) (h2 : x < 1) :
    1/2 ≤ toFixed3Q x ∧ toFixed3Q x ≤ 1 := by
  unfold toFixed3Q
  have lo : (499 : ℤ) < round (1000 * x) := by
    have hb := sub_half_lt_round (1000 * x)
    have : (499 : ℚ) < ((round (1000 * x) : ℤ) : ℚ) := by linarith
    exact_mod_cast this
  have hi : round (1000 * x) ≤ (1000 : ℤ) := by
    have hb := round_le_add_half (1000 * x)
    have : ((round (1000 * x) : ℤ) : ℚ) < 1001 := by linarith
    have h3 : round (1000 * x) < (1001 : ℤ) := by exact_mod_cast this
    omega
  constructor
  · rw [le_div_iff₀ (by norm_num : (0:ℚ) < (1000:ℚ))]
    have h4 : ((500:ℤ) : ℚ) ≤ ((round (1000 * x) : ℤ) : ℚ) := by exact_mod_cast lo
    push_cast at h4
    linarith
  · rw [div_le_one (by norm_num : (0:ℚ) < (1000:ℚ))]
    exact_mod_cast hi

theorem atempoChainLoop_step (n : ℕ) (r : ℚ) (chained : List Char) (idx : ℕ)
    (h1 : r < 1) :
    atempoChainLoop (n + 1) r chained idx =
      match atempoChainLoop n (r / max (1/2 : ℚ) r)
          (if (1:ℚ) ≤ r / max (1/2 : ℚ) r then aoutLabel else atmpLabel idx) (idx + 1) with
      | none => none
      | some rest =>
        some (⟨chained, max (1/2 : ℚ) r,
          if (1:ℚ) ≤ r / max (1/2 : ℚ) r then aoutLabel else atmpLabel idx⟩ :: rest) := by
  simp only [atempoChainLoop]
  rw [if_pos h1]

theorem atempoChainLoop_succeeds :
    ∀ (n : ℕ) (r : ℚ), 0 < r → 1 ≤ 2 ^ n * r →
      ∀ (lbl : List Char) (idx : ℕ), (atempoChainLoop (n + 1) r lbl idx).isSome := by
  intro n
  induction n with
  | zero =>
    intro r h0 h1 lbl idx
    simp only [pow_zero, one_mul] at h1
    rw [atempoChainLoop_of_one_le 1 r lbl idx h1]
    rfl
  | succ n ih =>
    intro r h0 h1 lbl idx
    by_cases hge : (1:ℚ) ≤ r
    · rw [atempoChainLoop_of_one_le (n + 1 + 1) r lbl idx hge]
      rfl
    · push_neg at hge
      rw [atempoChainLoop_step (n + 1) r lbl idx hge]
      by_cases hr : (1/2 : ℚ) ≤ r
      · rw [max_eq_right hr, div_self (ne_of_gt h0), if_pos (le_refl (1:ℚ)),
          atempoChainLoop_of_one_le (n + 1) 1 aoutLabel (idx + 1) (le_refl 1)]
        rfl
      · push_neg at hr
        have e2 : r / (1/2 : ℚ) = 2 * r := by
          rw [div_eq_mul_inv, one_div, inv_inv]
          ring
        rw [max_eq_left (le_of_lt hr), e2]
        have hlt : ¬ (1:ℚ) ≤ 2 * r := by
          push_neg
          nlinarith
        rw [if_neg hlt]
        have h2r0 : (0:ℚ) < 2 * r := by nlinarith
        have h2r1 : (1:ℚ) ≤ 2 ^ n * (2 * r) := by
          calc (1:ℚ) ≤ 2 ^ (n+1) * r := h1
            _ = 2 ^ n * (2 * r) := by ring
        obtain ⟨rest, hrest⟩ :=
          Option.isSome_iff_exists.mp (ih (2 * r) h2r0 h2r1 (atmpLabel idx) (idx + 1))
        rw [hrest]
        rfl

theorem atempoChainLoop_mono :
    ∀ (n m : ℕ), n ≤ m → ∀ (r : ℚ) (lbl : List Char) (idx : ℕ) (stages : List AtempoStage),
      atempoChainLoop n r lbl idx = some stages →
      atempoChainLoop m r lbl idx = some stages := by
  intro n
  induction n with
  | zero =>
    intro m hm r lbl idx stages h
    simp only [atempoChainLoop] at h
    by_cases hr : r < 1
    · rw [if_pos hr] at h
      exact absurd h (by simp)
    · rw [if_neg hr] at h
      injection h with h
      subst h
      exact atempoChainLoop_of_one_le m r lbl idx (not_lt.mp hr)
  | succ n ih =>
    intro m hm r lbl idx stages h
    obtain ⟨m2, rfl⟩ : ∃ m2, m = m2 + 1 := ⟨m - 1, by omega⟩
    by_cases hr : r < 1
    · rw [atempoChainLoop_step n r lbl idx hr] at h
      rw [atempoChainLoop_step m2 r lbl idx hr]
      cases hrec : atempoChainLoop n (r / max (1/2 : ℚ) r)
          (if (1:ℚ) ≤ r / max (1/2 : ℚ) r then aoutLabel else atmpLabel idx) (idx + 1) with
      | none => rw [hrec] at h; exact absurd h (by simp)
      | some rest =>
        rw [hrec] at h
        rw [ih m2 (by omega) _ _ _ _ hrec]
        exact h
    · rw [atempoChainLoop_of_one_le (n+1) r lbl idx (not_lt.mp hr)] at h
      injection h with h
      subst h
      exact atempoChainLoop_of_one_le (m2+1) r lbl idx (not_lt.mp hr)

end VideoComposer

namespace VideoComposer

/-- C6: for every tempo factor strictly between 0 and 1 the chaining loop
terminates: each iteration replaces the remaining factor `r` by
`r / max(0.5, r)`, which strictly increases it toward 1.0 while the emitted
stage factor `max(0.5, r)` is bounded below by 0.5; a remaining factor of
exactly 1.0 exits the loop immediately; and for every starting factor in
(0,1) finitely many iterations suffice (some fuel yields a result, and every
larger fuel yields the same result — the loop has stopped). -/
theorem c6_chain_loop_terminates :
    (∀ r : ℚ, 0 < r → r < 1 →
      r < r / max (1/2 : ℚ) r ∧ r / max (1/2 : ℚ) r ≤ 1 ∧ (1/2 : ℚ) ≤ max (1/2 : ℚ) r) ∧
    (∀ (n : ℕ) (lbl : List Char) (idx : ℕ), atempoChainLoop n 1 lbl idx = some []) ∧
    (∀ r : ℚ, 0 < r → r < 1 →
      ∃ n stages, atempoChainLoop n r audioInLabel 0 = some stages ∧
        ∀ m, n ≤ m → atempoChainLoop m r audioInLabel 0 = some stages) := by
  refine ⟨?_, ?_, ?_⟩
  · intro r h0 h1
    by_cases hr : (1/2 : ℚ) ≤ r
    · rw [max_eq_right hr, div_self (ne_of_gt h0)]
      exact ⟨h1, le_refl 1, hr⟩
    · push_neg at hr
      rw [max_eq_left (le_of_lt hr)]
      have e2 : r / (1/2 : ℚ) = 2 * r := by
        rw [div_eq_mul_inv, one_div, inv_inv]
        ring
      rw [e2]
      exact ⟨by nlinarith, by nlinarith, le_refl _⟩
  · intro n lbl idx
    exact atempoChainLoop_of_one_le n 1 lbl idx (le_refl 1)
  · intro r h0 h1
    obtain ⟨k, hk⟩ := pow_unbounded_of_one_lt (1 / r) (by norm_num : (1:ℚ) < 2)
    have hfuel : (1:ℚ) ≤ 2 ^ k * r := by
      rw [div_lt_iff₀ h0] at hk
      linarith
    obtain ⟨stages, hst⟩ :=
      Option.isSome_iff_exists.mp (atempoChainLoop_succeeds k r h0 hfuel audioInLabel 0)
    exact ⟨k + 1, stages, hst, fun m hm => atempoChainLoop_mono (k + 1) m hm r _ 0 stages hst⟩

/-- Witness for C6 at the spec scenario factor 0.4: the loop terminates with
a concrete fuel bound whose result is stable under more fuel. -/
theorem c6_witness :
    ∃ n stages, atempoChainLoop n (2/5 : ℚ) audioInLabel 0 = some stages ∧
      ∀ m, n ≤ m → atempoChainLoop m (2/5 : ℚ) audioInLabel 0 = some stages :=
  c6_chain_loop_terminates.2.2 (2/5) (by norm_num) (by norm_num)

/-- C2: for known durations with `0 < ad < vd` and tempo factor
`ad/vd < 0.5`, `addAudioProcessing` enters the chained branch: the produced
stages are nonempty, every exact per-stage factor (and its rounded
`toFixed(3)` value) lies in [0.5, 1.0] and the rounded value is within
1/2000 of the exact one, the cumulative product of the per-stage factors is
exactly `ad/vd`, the first stage consumes `[1:a]`, each later stage consumes
the previous stage's output label, the intermediate output labels are the
fresh `[atmp0]`, `[atmp1]`, … in order, the final stage's output label is
`[aout]`, and `[aout]` becomes the chosen audio label. -/
theorem c2_tempo_chain_correct (vd ad : ℚ) (fuel : ℕ) (stages : List AtempoStage)
    (h0 : 0 < ad) (h1 : ad < vd) (h2 : ad / vd < 1/2)
    (hloop : atempoChainLoop fuel (ad / vd) audioInLabel 0 = some stages) :
    addAudioProcessing (some vd) (some ad) fuel = some (AudioPlan.chained stages, aoutLabel) ∧
    stages ≠ [] ∧
    (∀ s ∈ stages, 1/2 ≤ s.factor ∧ s.factor ≤ 1) ∧
    (∀ s ∈ stages, 1/2 ≤ toFixed3Q s.factor ∧ toFixed3Q s.factor ≤ 1 ∧
      |toFixed3Q s.factor - s.factor| ≤ 1/2000) ∧
    (stages.map AtempoStage.factor).prod = ad / vd ∧
    stages.map AtempoStage.inLabel =
      audioInLabel :: (List.range (stages.length - 1)).map atmpLabel ∧
    stages.map AtempoStage.outLabel =
      (List.range (stages.length - 1)).map atmpLabel ++ [aoutLabel] ∧
    List.Chain' (fun a b => b.inLabel = a.outLabel) stages := by
  have hvd : (0:ℚ) < vd := lt_trans h0 h1
  have hr0 : (0:ℚ) < ad / vd := div_pos h0 hvd
  have hr1 : ad / vd < 1 := (div_lt_one hvd).mpr h1
  obtain ⟨hne, hfac, hprod, hin, hout, hchain⟩ :=
    atempoChainLoop_spec fuel (ad / vd) audioInLabel 0 stages hr0 hr1 hloop
  have hmap : ∀ L : List ℕ, L.map (fun k => atmpLabel (0 + k)) = L.map atmpLabel := by
    intro L
    apply List.map_congr_left
    intro k _
    rw [Nat.zero_add]
  constructor
  · simp only [addAudioProcessing]
    rw [if_neg (by push_neg; exact ⟨ne_of_gt h0, ne_of_gt hvd⟩), if_pos h1,
      if_neg (by rintro ⟨hc, _⟩; linarith), if_pos h2, hloop]
  refine ⟨hne, ?_, ?_, hprod, ?_, ?_, hchain⟩
  · intro s hs
    obtain ⟨hl, hu⟩ := hfac s hs
    exact ⟨hl, le_of_lt hu⟩
  · intro s hs
    obtain ⟨hl, hu⟩ := hfac s hs
    obtain ⟨bl, bu⟩ := toFixed3Q_bounds hl hu
    exact ⟨bl, bu, toFixed3Q_near s.factor⟩
  · rw [hin, hmap]
  · rw [hout, hmap]

/-- Witness for C2 at the spec scenario `vd = 10`, `ad = 4` (factor 0.4):
fuel 2 produces the two-stage chain 0.5 then 0.8. -/
theorem c2_witness :
    addAudioProcessing (some 10) (some 4) 2 =
      some (AudioPlan.chained
        [⟨audioInLabel, 1/2, atmpLabel 0⟩, ⟨atmpLabel 0, 4/5, aoutLabel⟩], aoutLabel) ∧
    ([⟨audioInLabel, 1/2, atmpLabel 0⟩,
      (⟨atmpLabel 0, 4/5, aoutLabel⟩ : AtempoStage)].map AtempoStage.factor).prod = (4:ℚ) / 10 :=
  ⟨(c2_tempo_chain_correct 10 4 2
      [⟨audioInLabel, 1/2, atmpLabel 0⟩, ⟨atmpLabel 0, 4/5, aoutLabel⟩]
      (by norm_num) (by norm_num) (by norm_num)
      (by norm_num [atempoChainLoop])).1,
   (c2_tempo_chain_correct 10 4 2
      [⟨audioInLabel, 1/2, atmpLabel 0⟩, ⟨atmpLabel 0, 4/5, aoutLabel⟩]
      (by norm_num) (by norm_num) (by norm_num)
      (by norm_num [atempoChainLoop])).2.2.2.2.1⟩

end VideoComposer

namespace VideoComposer

/-! ## File management and the compose/request control flow
(`src/server.js` lines 49–73, 280–343, 374–458)

```
class FileManager {
  static async cleanup(paths = []) {
    for (const path of paths) {
      if (!path) continue;
      try { await fs.unlink(path); }
      catch (err) { console.error('Cleanup error for', path, err.message); }
    }
  }
  static async validateFile(path) {
    try { const stats = await fs.stat(path); return stats.isFile() && stats.size > 0; }
    catch { return false; }
  }
  static generateOutputPath() { return `/tmp/output_${Date.now()}.mp4`; }
}
```
The filesystem is modelled as a predicate `String → Bool` (path exists); the
nondeterministic outcomes of the effectful steps (subtitle processing, the
engine invocation, `fs.stat`) are inputs collected in an environment record;
`Date.now()` is modelled by an arbitrary token. -/

structure FStat where
  isFile : Bool
  size : ℕ
  deriving DecidableEq, Repr

/-- Model of `FileManager.validateFile`: `none` models `fs.stat` throwing, in
which case the catch handler returns `false` — the check never raises. -/
def validateFile (st : Option FStat) : Bool :=
  match st with
  | none => false
  | some s => s.isFile && decide (0 < s.size)

/-- Model of `FileManager.generateOutputPath` with `Date.now()` as a token. -/
def generateOutputPath (token : ℕ) : String :=
  "/tmp/output_" ++ Nat.repr token ++ ".mp4"

/-- Output path of `SubtitleProcessor.processSubtitleFile`:
`` `${subtitlePath}_processed.ass` ``. -/
def processedPathOf (subtitlePath : String) : String :=
  subtitlePath ++ "_processed.ass"

/-- One `fs.unlink` attempt: when the unlink fails (per the failure
environment `fails`) the file remains, the error is caught and logged, and
iteration continues; otherwise the path is removed. -/
def unlinkStep (fails : String → Bool) (fs : String → Bool) (p : String) : String → Bool :=
  if fails p then fs else fun q => if q = p then false else fs q

/-- Model of `FileManager.cleanup`: iterate over the list, skip falsy (null)
entries, attempt `fs.unlink` on each of the others, swallowing per-path
errors.  The function is total: no deletion error propagates to the caller. -/
def runCleanup (fails : String → Bool) : List (Option String) → (String → Bool) → (String → Bool)
  | [], fs => fs
  | none :: rest, fs => runCleanup fails rest fs
  | some p :: rest, fs => runCleanup fails rest (unlinkStep fails fs p)

/-- Paths a cleanup call actually attempts to unlink: every non-null entry,
independent of any unlink failures. -/
def cleanupAttempted (paths : List (Option String)) : List String :=
  paths.filterMap id

/-- Run a sequence of cleanup calls in order. -/
def runCleanupCalls (fails : String → Bool) (calls : List (List (Option String)))
    (fs : String → Bool) : String → Bool :=
  calls.foldl (fun acc call => runCleanup fails call acc) fs

/-- Environment of effect outcomes for one `VideoComposer.compose` run. -/
structure ComposeEnv where
  subtitleOk : Bool
  execOk : Bool
  outStat : Option FStat
  deriving DecidableEq, Repr

structure ComposeResult where
  outputPath : String
  processedSubtitlePath : Option String
  deriving DecidableEq, Repr

inductive ComposeOutcome where
  | ok : ComposeResult → ComposeOutcome
  | error : String → ComposeOutcome
  deriving DecidableEq, Repr

/-- Trace of one compose run: its outcome plus every `FileManager.cleanup`
argument list that compose itself issued. -/
structure ComposeTrace where
  outcome : ComposeOutcome
  cleanupCalls : List (List (Option String))
  deriving DecidableEq, Repr

/-- Value of `processedSubtitlePath` at catch/return time. -/
def composeProcessedPath (env : ComposeEnv) (subtitlesPath : Option String) : Option String :=
  match subtitlesPath with
  | none => none
  | some sp => if env.subtitleOk then some (processedPathOf sp) else none

/-- The tail of `compose` after subtitle processing: engine invocation and
output validation, with the shared catch block. -/
def composeAfterSubtitles (env : ComposeEnv) (outputPath : String)
    (processed : Option String) : ComposeTrace :=
  if env.execOk then
    if validateFile env.outStat then
      { outcome := ComposeOutcome.ok ⟨outputPath, processed⟩, cleanupCalls := [] }
    else
      { outcome := ComposeOutcome.error "Output file is empty or missing"
        cleanupCalls := [[some outputPath, processed]] }
  else
    { outcome := ComposeOutcome.error "ffmpeg failed"
      cleanupCalls := [[some outputPath, processed]] }


/-- Model of `VideoComposer.compose` (`src/server.js`): generate the output
path, optionally process subtitles, build the filter chain and command (pure,
cannot throw since the preset is always set), run the engine, validate the
output; on any thrown error run `FileManager.cleanup([outputPath,
processedSubtitlePath])` and rethrow. -/
def compose (env : ComposeEnv) (token : ℕ) (subtitlesPath : Option String) : ComposeTrace :=
  let outputPath := generateOutputPath token
  match subtitlesPath with
  | some _ =>
    if env.subtitleOk then
      composeAfterSubtitles env outputPath (composeProcessedPath env subtitlesPath)
    else
      { outcome := ComposeOutcome.error "Failed to process subtitle file"
        cleanupCalls := [[some outputPath, none]] }
  | none => composeAfterSubtitles env outputPath none

end VideoComposer

namespace VideoComposer

/-- Environment for one HTTP request on top of the compose environment:
whether the handler's own `fs.stat(outputPath)` after compose succeeds, and
whether the byte stream piped to the response reaches its `end` event — the
only place the success-path cleanup is registered; if the client aborts or
the stream errors before `end`, that callback never runs. -/
structure HandlerEnv where
  composeEnv : ComposeEnv
  statOk : Bool
  streamEnds : Bool
  deriving DecidableEq, Repr

inductive HandlerResponse where
  | badRequest : HandlerResponse
  | serverError : HandlerResponse
  | sent : HandlerResponse
  deriving DecidableEq, Repr

/-- Trace of one request: response class plus every `FileManager.cleanup`
argument list issued during the request (by compose and by the handler). -/
structure HandlerTrace where
  response : HandlerResponse
  cleanupCalls : List (List (Option String))
  deriving DecidableEq, Repr

/-- Model of `ComposeRequestHandler.handle` (`src/server.js`): reject the
request with 400 before creating anything when video or audio is missing;
otherwise run compose; on a compose error the catch block cleans the
`filePaths` record (whose output/processedSubtitles slots are still null);
on success the output is stat-ed (a throw there takes the same catch path,
now with the output slots filled) and the whole `filePaths` record is
cleaned only inside the `fileStream.on('end', ...)` callback — when the
stream never reaches `end` (client abort, stream error) no cleanup call is
issued on the success path. -/
def handle (henv : HandlerEnv) (token : ℕ) (hasVideo hasAudio : Bool)
    (videoPath audioPath : String) (subtitlesPath : Option String) : HandlerTrace :=
  if hasVideo && hasAudio then
    let tr := compose henv.composeEnv token subtitlesPath
    match tr.outcome with
    | ComposeOutcome.error _ =>
      { response := HandlerResponse.serverError
        cleanupCalls := tr.cleanupCalls ++
          [[some videoPath, some audioPath, subtitlesPath, none, none]] }
    | ComposeOutcome.ok res =>
      if henv.statOk then
        { response := HandlerResponse.sent
          cleanupCalls := tr.cleanupCalls ++
            (if henv.streamEnds then
              [[some videoPath, some audioPath, subtitlesPath,
                some res.outputPath, res.processedSubtitlePath]]
             else []) }
      else
        { response := HandlerResponse.serverError
          cleanupCalls := tr.cleanupCalls ++
            [[some videoPath, some audioPath, subtitlesPath,
              some res.outputPath, res.processedSubtitlePath]] }
  else
    { response := HandlerResponse.badRequest, cleanupCalls := [] }

/-- The pipeline-owned temp paths created during a request: the generated
output path (owned as soon as compose starts) and the processed subtitle
path when subtitle processing ran and succeeded.  When the request is
rejected with 400, compose never runs and nothing is created. -/
def pipelineCreatedPaths (henv : HandlerEnv) (token : ℕ) (hasVideo hasAudio : Bool)
    (subtitlesPath : Option String) : List String :=
  if hasVideo && hasAudio then
    generateOutputPath token ::
      (match composeProcessedPath henv.composeEnv subtitlesPath with
        | none => []
        | some pp => [pp])
  else []

theorem runCleanup_preserves_false (fails : String → Bool) :
    ∀ (paths : List (Option String)) (fs : String → Bool) (p : String),
      fs p = false → runCleanup fails paths fs p = false := by
  intro paths
  induction paths with
  | nil => intro fs p h; exact h
  | cons o rest ih =>
    intro fs p h
    cases o with
    | none => exact ih fs p h
    | some q =>
      simp only [runCleanup]
      apply ih
      unfold unlinkStep
      by_cases hf : fails q
      · simp [hf, h]
      · simp [hf]
        intro _
        exact h

theorem runCleanup_deletes (fails : String → Bool) :
    ∀ (paths : List (Option String)) (fs : String → Bool) (p : String),
      some p ∈ paths → fails p = false → runCleanup fails paths fs p = false := by
  intro paths
  induction paths with
  | nil => intro fs p hp; simp at hp
  | cons o rest ih =>
    intro fs p hp hf
    cases o with
    | none =>
      simp at hp
      exact ih fs p hp hf
    | some q =>
      simp only [runCleanup]
      rcases List.mem_cons.mp hp with hq | hq
      · injection hq with hq
        subst hq
        apply runCleanup_preserves_false
        unfold unlinkStep
        rw [hf]
        simp
      · exact ih _ p hq hf

theorem runCleanup_frame (fails : String → Bool) :
    ∀ (paths : List (Option String)) (fs : String → Bool) (q : String),
      (some q ∉ paths) → runCleanup fails paths fs q = fs q := by
  intro paths
  induction paths with
  | nil => intro fs q _; rfl
  | cons o rest ih =>
    intro fs q hq
    cases o with
    | none =>
      simp only [runCleanup]
      exact ih fs q (fun hc => hq (List.mem_cons_of_mem _ hc))
    | some p =>
      simp only [runCleanup]
      rw [ih _ q (fun hc => hq (List.mem_cons_of_mem _ hc))]
      have hne : q ≠ p := by
        intro he
        subst he
        exact hq (List.mem_cons_self _ _)
      unfold unlinkStep
      by_cases hf : fails p
      · rw [if_pos hf]
      · rw [if_neg hf]
        simp [hne]

end VideoComposer

namespace VideoComposer

theorem validateFile_true {st : Option FStat} (h : validateFile st = true) :
    ∃ s, st = some s ∧ s.isFile = true ∧ 0 < s.size := by
  cases st with
  | none => exact absurd h (by simp [validateFile])
  | some s =>
    refine ⟨s, rfl, ?_, ?_⟩
    · simp [validateFile] at h
      exact h.1
    · simp [validateFile] at h
      exact h.2

/-- Exhaustive description of a compose run: either everything succeeded and
no cleanup was issued, or an error was thrown and the single cleanup call
`[outputPath, processedSubtitlePath]` was issued. -/
theorem compose_cases (env : ComposeEnv) (token : ℕ) (sub : Option String) :
    (compose env token sub =
        { outcome := ComposeOutcome.ok
            ⟨generateOutputPath token, composeProcessedPath env sub⟩
          cleanupCalls := [] } ∧
      env.execOk = true ∧ validateFile env.outStat = true) ∨
    (∃ msg, compose env token sub =
        { outcome := ComposeOutcome.error msg
          cleanupCalls := [[some (generateOutputPath token), composeProcessedPath env sub]] }) := by
  cases sub with
  | none =>
    simp only [compose, composeAfterSubtitles, composeProcessedPath]
    by_cases he : env.execOk
    · by_cases hv : validateFile env.outStat
      · left
        simp [he, hv]
      · right
        refine ⟨"Output file is empty or missing", ?_⟩
        simp [he, hv]
    · right
      refine ⟨"ffmpeg failed", ?_⟩
      simp [he]
  | some sp =>
    simp only [compose, composeAfterSubtitles, composeProcessedPath]
    by_cases hs : env.subtitleOk
    · by_cases he : env.execOk
      · by_cases hv : validateFile env.outStat
        · left
          simp [hs, he, hv]
        · right
          refine ⟨"Output file is empty or missing", ?_⟩
          simp [hs, he, hv]
      · right
        refine ⟨"ffmpeg failed", ?_⟩
        simp [hs, he]
    · right
      refine ⟨"Failed to process subtitle file", ?_⟩
      simp [hs]

/-- C8: compose succeeds only when, after the engine returned without error,
the output artifact exists, is a regular file and has non-zero size; when the
engine reported success but the artifact is missing or empty, compose throws
`Output file is empty or missing` and takes the cleanup path with exactly its
own two temp paths; and the validation check itself returns `false` instead
of raising when the file cannot be stat-ed. -/
theorem c8_output_validation (env : ComposeEnv) (token : ℕ) (sub : Option String) :
    (∀ res, (compose env token sub).outcome = ComposeOutcome.ok res →
      env.execOk = true ∧ validateFile env.outStat = true ∧
      res = ⟨generateOutputPath token, composeProcessedPath env sub⟩ ∧
      ∃ st, env.outStat = some st ∧ st.isFile = true ∧ 0 < st.size) ∧
    (env.execOk = true → (sub = none ∨ env.subtitleOk = true) →
      validateFile env.outStat = false →
      (compose env token sub).outcome =
        ComposeOutcome.error "Output file is empty or missing" ∧
      (compose env token sub).cleanupCalls =
        [[some (generateOutputPath token), composeProcessedPath env sub]]) ∧
    validateFile none = false := by
  refine ⟨?_, ?_, rfl⟩
  · intro res h
    rcases compose_cases env token sub with ⟨he, hexec, hval⟩ | ⟨msg, he⟩
    · rw [he] at h
      injection h with h
      obtain ⟨st, hst, hfile, hsize⟩ := validateFile_true hval
      exact ⟨hexec, hval, h.symm, st, hst, hfile, hsize⟩
    · rw [he] at h
      exact absurd h (by simp)
  · intro hexec hsub hval
    cases sub with
    | none =>
      simp only [compose, composeAfterSubtitles, composeProcessedPath]
      rw [if_pos hexec, if_neg (by rw [hval]; exact Bool.false_ne_true)]
      exact ⟨rfl, rfl⟩
    | some sp =>
      have hs : env.subtitleOk = true := by
        rcases hsub with hc | hc
        · exact absurd hc (by simp)
        · exact hc
      simp only [compose, composeAfterSubtitles, composeProcessedPath]
      rw [if_pos hs, if_pos hs, if_pos hexec, if_neg (by rw [hval]; exact Bool.false_ne_true)]
      exact ⟨rfl, rfl⟩

/-- Witness for C8: with the engine reporting success but a zero-byte output
file, compose errors and cleans up its own two paths. -/
theorem c8_witness :
    (compose ⟨true, true, some ⟨true, 0⟩⟩ 7 (some "/tmp/subs")).outcome =
      ComposeOutcome.error "Output file is empty or missing" ∧
    (compose ⟨true, true, some ⟨true, 0⟩⟩ 7 (some "/tmp/subs")).cleanupCalls =
      [[some (generateOutputPath 7),
        composeProcessedPath ⟨true, true, some ⟨true, 0⟩⟩ (some "/tmp/subs")]] :=
  (c8_output_validation ⟨true, true, some ⟨true, 0⟩⟩ 7 (some "/tmp/subs")).2.1
    rfl (Or.inr rfl) rfl

end VideoComposer

namespace VideoComposer

/-- C10: on its error path compose passes to cleanup only the artifacts it
itself created — the generated output path and the processed subtitle path —
and on its success path it issues no cleanup at all; consequently any path
different from those two (in particular the caller-supplied video and audio
input paths, which are never of either shape compose creates) is untouched by
compose's cleanups on both paths, its lifecycle being left to the caller. -/
theorem c10_compose_never_deletes_inputs (env : ComposeEnv) (token : ℕ)
    (sub : Option String) :
    (∀ call ∈ (compose env token sub).cleanupCalls, ∀ p : String,
      some p ∈ call →
        p = generateOutputPath token ∨ some p = composeProcessedPath env sub) ∧
    (∀ res, (compose env token sub).outcome = ComposeOutcome.ok res →
      (compose env token sub).cleanupCalls = []) ∧
    (∀ (inputPath : String) (fails fs : String → Bool),
      inputPath ≠ generateOutputPath token →
      some inputPath ≠ composeProcessedPath env sub →
      runCleanupCalls fails (compose env token sub).cleanupCalls fs inputPath
        = fs inputPath) := by
  have hcalls : (compose env token sub).cleanupCalls = [] ∨
      (compose env token sub).cleanupCalls =
        [[some (generateOutputPath token), composeProcessedPath env sub]] := by
    rcases compose_cases env token sub with ⟨he, _, _⟩ | ⟨msg, he⟩
    · left
      rw [he]
    · right
      rw [he]
  refine ⟨?_, ?_, ?_⟩
  · intro call hcall p hp
    rcases hcalls with hc | hc
    · rw [hc] at hcall
      exact absurd hcall (by simp)
    · rw [hc] at hcall
      simp at hcall
      subst hcall
      simp at hp
      rcases hp with hp | hp
      · left
        exact hp
      · right
        rw [hp]
  · intro res h
    rcases compose_cases env token sub with ⟨he, _, _⟩ | ⟨msg, he⟩
    · rw [he]
    · rw [he] at h
      exact absurd h (by simp)
  · intro inputPath fails fs hout hproc
    rcases hcalls with hc | hc
    · rw [hc]
      rfl
    · rw [hc]
      show runCleanup fails [some (generateOutputPath token), composeProcessedPath env sub] fs
        inputPath = fs inputPath
      apply runCleanup_frame
      intro hmem
      simp at hmem
      rcases hmem with hmem | hmem
      · exact hout hmem
      · exact hproc (by rw [hmem])

/-- Witness for C10: for a failing encode and concrete multer-style input
paths, compose's cleanups leave the video and audio inputs untouched. -/
theorem c10_witness :
    runCleanupCalls (fun _ => false)
        ((compose ⟨true, false, none⟩ 7 (some "/tmp/subs")).cleanupCalls)
        (fun _ => true) "/tmp/videoupload" = true ∧
    runCleanupCalls (fun _ => false)
        ((compose ⟨true, false, none⟩ 7 (some "/tmp/subs")).cleanupCalls)
        (fun _ => true) "/tmp/audioupload" = true :=
  ⟨(c10_compose_never_deletes_inputs ⟨true, false, none⟩ 7 (some "/tmp/subs")).2.2
      "/tmp/videoupload" (fun _ => false) (fun _ => true) (by decide) (by decide),
   (c10_compose_never_deletes_inputs ⟨true, false, none⟩ 7 (some "/tmp/subs")).2.2
      "/tmp/audioupload" (fun _ => false) (fun _ => true) (by decide) (by decide)⟩

end VideoComposer

namespace VideoComposer

theorem runCleanupCalls_preserves_false (fails : String → Bool) :
    ∀ (calls : List (List (Option String))) (fs : String → Bool) (p : String),
      fs p = false → runCleanupCalls fails calls fs p = false := by
  intro calls
  induction calls with
  | nil => intro fs p h; exact h
  | cons call rest ih =>
    intro fs p h
    exact ih _ p (runCleanup_preserves_false fails call fs p h)

theorem runCleanupCalls_deletes (fails : String → Bool) :
    ∀ (calls : List (List (Option String))) (fs : String → Bool) (p : String),
      (∃ call ∈ calls, some p ∈ call) → fails p = false →
      runCleanupCalls fails calls fs p = false := by
  intro calls
  induction calls with
  | nil =>
    intro fs p h _
    obtain ⟨c, hc, _⟩ := h
    exact absurd hc (by simp)
  | cons call rest ih =>
    intro fs p h hf
    obtain ⟨c, hc, hp⟩ := h
    rcases List.mem_cons.mp hc with hc | hc
    · subst hc
      exact runCleanupCalls_preserves_false fails rest _ p
        (runCleanup_deletes fails c fs p hp hf)
    · exact ih _ p ⟨c, hc, hp⟩ hf

/-- C1 counterexample: the claim says every created temp path is passed to
cleanup on every request.  On a fully successful request whose response
stream never reaches `end` (client abort or stream error after the headers
are out) the success-path cleanup callback never runs: the generated output
file was created, yet the request issues no cleanup call at all, and the
file survives even with no unlink failures anywhere. -/
theorem c1_counterexample :
    (handle ⟨⟨true, true, some ⟨true, 5⟩⟩, true, false⟩ 7 true true
        "/tmp/v" "/tmp/a" none).response = HandlerResponse.sent ∧
    generateOutputPath 7 ∈
      pipelineCreatedPaths ⟨⟨true, true, some ⟨true, 5⟩⟩, true, false⟩ 7 true true none ∧
    (handle ⟨⟨true, true, some ⟨true, 5⟩⟩, true, false⟩ 7 true true
        "/tmp/v" "/tmp/a" none).cleanupCalls = [] ∧
    runCleanupCalls (fun _ => false)
      (handle ⟨⟨true, true, some ⟨true, 5⟩⟩, true, false⟩ 7 true true
        "/tmp/v" "/tmp/a" none).cleanupCalls
      (fun _ => true) (generateOutputPath 7) = true :=
  ⟨by decide, by decide, by decide, by decide⟩

/-- C1 (amended): `FileManager.cleanup` is best-effort — it attempts every
non-null path in its list and a failing unlink neither stops the iteration
nor surfaces to the caller — and every pipeline-owned temp path created
during a request (the generated output path, and the processed subtitle path
when present) appears in some cleanup call of the request whenever the
request fails at any stage (the catch block cleans unconditionally) or
succeeds with its response stream reaching `end` (the success-path cleanup
lives in the `end` callback); such a path is then absent afterwards whenever
its own unlink succeeds.  A successful request whose stream is aborted
before `end` is the one uncovered case. -/
theorem c1_cleanup_amended :
    (∀ (fails fs : String → Bool) (paths : List (Option String)) (p : String),
      some p ∈ paths → fails p = false → runCleanup fails paths fs p = false) ∧
    (∀ (henv : HandlerEnv) (token : ℕ) (hasVideo hasAudio : Bool)
        (videoPath audioPath : String) (subtitlesPath : Option String),
      henv.streamEnds = true ∨
        (handle henv token hasVideo hasAudio videoPath audioPath
          subtitlesPath).response ≠ HandlerResponse.sent →
      ∀ p ∈ pipelineCreatedPaths henv token hasVideo hasAudio subtitlesPath,
        ∃ call ∈ (handle henv token hasVideo hasAudio videoPath audioPath
            subtitlesPath).cleanupCalls, some p ∈ call) ∧
    (∀ (henv : HandlerEnv) (token : ℕ) (hasVideo hasAudio : Bool)
        (videoPath audioPath : String) (subtitlesPath : Option String)
        (fails fs : String → Bool),
      henv.streamEnds = true ∨
        (handle henv token hasVideo hasAudio videoPath audioPath
          subtitlesPath).response ≠ HandlerResponse.sent →
      ∀ p ∈ pipelineCreatedPaths henv token hasVideo hasAudio subtitlesPath,
        fails p = false →
        runCleanupCalls fails
          (handle henv token hasVideo hasAudio videoPath audioPath
            subtitlesPath).cleanupCalls fs p = false) := by
  have key : ∀ (henv : HandlerEnv) (token : ℕ) (hasVideo hasAudio : Bool)
      (videoPath audioPath : String) (subtitlesPath : Option String),
      henv.streamEnds = true ∨
        (handle henv token hasVideo hasAudio videoPath audioPath
          subtitlesPath).response ≠ HandlerResponse.sent →
      ∀ p ∈ pipelineCreatedPaths henv token hasVideo hasAudio subtitlesPath,
        ∃ call ∈ (handle henv token hasVideo hasAudio videoPath audioPath
            subtitlesPath).cleanupCalls, some p ∈ call := by
    intro henv token hasVideo hasAudio videoPath audioPath subtitlesPath hyp p hp
    by_cases hreq : hasVideo && hasAudio
    · simp only [pipelineCreatedPaths, if_pos hreq] at hp
      have hpshape : p = generateOutputPath token ∨
          composeProcessedPath henv.composeEnv subtitlesPath = some p := by
        rcases List.mem_cons.mp hp with h | h
        · left; exact h
        · right
          cases hm : composeProcessedPath henv.composeEnv subtitlesPath with
          | none => rw [hm] at h; exact absurd h (by simp)
          | some pp =>
            rw [hm] at h
            simp at h
            rw [h]
      rcases compose_cases henv.composeEnv token subtitlesPath with ⟨he, _, _⟩ | ⟨msg, he⟩
      · by_cases hstat : henv.statOk
        · rcases hyp with hstream | hresp
          · simp only [handle, if_pos hreq]
            rw [he]
            simp only [List.nil_append]
            rw [if_pos hstat, if_pos hstream]
            refine ⟨[some videoPath, some audioPath, subtitlesPath,
              some (generateOutputPath token),
              composeProcessedPath henv.composeEnv subtitlesPath], by simp, ?_⟩
            rcases hpshape with h | h
            · simp [h]
            · simp [h]
          · exfalso
            apply hresp
            simp only [handle, if_pos hreq]
            rw [he]
            simp [hstat]
        · simp only [handle, if_pos hreq]
          rw [he]
          simp only [List.nil_append]
          rw [if_neg hstat]
          refine ⟨[some videoPath, some audioPath, subtitlesPath,
            some (generateOutputPath token),
            composeProcessedPath henv.composeEnv subtitlesPath], by simp, ?_⟩
          rcases hpshape with h | h
          · simp [h]
          · simp [h]
      · simp only [handle, if_pos hreq]
        rw [he]
        refine ⟨[some (generateOutputPath token),
          composeProcessedPath henv.composeEnv subtitlesPath], by simp, ?_⟩
        rcases hpshape with h | h
        · simp [h]
        · simp [h]
    · simp only [pipelineCreatedPaths, if_neg hreq] at hp
      exact absurd hp (by simp)
  refine ⟨fun fails fs paths p => runCleanup_deletes fails paths fs p, key, ?_⟩
  intro henv token hasVideo hasAudio videoPath audioPath subtitlesPath fails fs hyp p hp hf
  exact runCleanupCalls_deletes fails _ fs p
    (key henv token hasVideo hasAudio videoPath audioPath subtitlesPath hyp p hp) hf

/-- Witness for the amended C1: a request whose encode fails (so the catch
block cleans regardless of the stream, here even with the stream marked as
never ending), with a processed subtitle file present and an unlink failure
on the output path: both created paths are still passed to cleanup, and the
subtitle file is deleted despite the failure on the other path. -/
theorem c1_amended_witness :
    (∃ call ∈ (handle ⟨⟨true, false, none⟩, true, false⟩ 7 true true "/tmp/v" "/tmp/a"
        (some "/tmp/s")).cleanupCalls,
      some (processedPathOf "/tmp/s") ∈ call) ∧
    runCleanupCalls (fun q => decide (q = generateOutputPath 7))
      (handle ⟨⟨true, false, none⟩, true, false⟩ 7 true true "/tmp/v" "/tmp/a"
        (some "/tmp/s")).cleanupCalls
      (fun _ => true) (processedPathOf "/tmp/s") = false :=
  ⟨c1_cleanup_amended.2.1 ⟨⟨true, false, none⟩, true, false⟩ 7 true true
      "/tmp/v" "/tmp/a" (some "/tmp/s") (Or.inr (by decide)) (processedPathOf "/tmp/s")
      (by simp [pipelineCreatedPaths, composeProcessedPath, processedPathOf]),
   c1_cleanup_amended.2.2 ⟨⟨true, false, none⟩, true, false⟩ 7 true true
      "/tmp/v" "/tmp/a" (some "/tmp/s") (fun q => decide (q = generateOutputPath 7))
      (fun _ => true) (Or.inr (by decide)) (processedPathOf "/tmp/s")
      (by simp [pipelineCreatedPaths, composeProcessedPath, processedPathOf])
      (by decide)⟩

end VideoComposer

namespace VideoComposer

/-! ## Fuel-indexed equivalents of the global-replace drivers

The three drivers recurse on the unmatched suffix, which is well-founded but
not structural, so the kernel cannot evaluate them on concrete input.  The
following copies take structural fuel; any fuel at least the input length
yields exactly the same result, so concrete instances can be settled by
`decide` through them. -/

def replaceP1F : ℕ → List Char → List Char
  | 0, s => s
  | _ + 1, [] => []
  | fuel + 1, c :: cs =>
    match stripPre styleTag (c :: cs) with
    | some rest =>
      match p1Search rest with
      | some m =>
        styleTag ++ m.nameCapture ++ [','] ++ m.fontField ++ [','] ++
          newFontSize m.sizeField ++ [','] ++ replaceP1F fuel m.rest
      | none => c :: replaceP1F fuel cs
    | none => c :: replaceP1F fuel cs

def replaceP2F : ℕ → List Char → List Char
  | 0, s => s
  | _ + 1, [] => []
  | fuel + 1, c :: cs =>
    match stripPre styleTag (c :: cs) with
    | some rest =>
      match p2Search rest with
      | some m =>
        styleTag ++ m.headCapture ++ [','] ++ chunksRender m.skipped ++
          m.num1 ++ [','] ++ m.num2 ++ [','] ++ marginTarget ++ replaceP2F fuel m.rest
      | none => c :: replaceP2F fuel cs
    | none => c :: replaceP2F fuel cs

def replaceP3F : ℕ → List Char → List Char
  | 0, s => s
  | _ + 1, [] => []
  | fuel + 1, c :: cs =>
    match stripPre marginVTag (c :: cs) with
    | some rest =>
      if rest.takeWhile (fun c => isDig c) = [] then c :: replaceP3F fuel cs
      else marginVTag ++ marginTarget ++
        replaceP3F fuel (rest.drop (rest.takeWhile (fun c => isDig c)).length)
    | none => c :: replaceP3F fuel cs

theorem replaceP1F_eq : ∀ (fuel : ℕ) (s : List Char), s.length ≤ fuel →
    replaceP1F fuel s = replaceP1 s := by
  intro fuel
  induction fuel with
  | zero =>
    intro s h
    have : s = [] := List.length_eq_zero.mp (Nat.le_zero.mp h)
    subst this
    rw [replaceP1]
    rfl
  | succ fuel ih =>
    intro s h
    cases s with
    | nil => rw [replaceP1]; rfl
    | cons c cs =>
      rw [replaceP1]
      split
      next rest h0 =>
        split
        next m h1 =>
          have e1 := stripPre_length h0
          have e2 := p1Search_rest_lt h1
          have e3 : styleTag.length = 6 := rfl
          simp only [List.length_cons] at e1 h
          simp only [replaceP1F, h0, h1]
          rw [ih m.rest (by omega)]
        next h1 =>
          simp only [replaceP1F, h0, h1]
          rw [ih cs (by simp only [List.length_cons] at h; omega)]
      next h0 =>
        simp only [replaceP1F, h0]
        rw [ih cs (by simp only [List.length_cons] at h; omega)]

theorem replaceP2F_eq : ∀ (fuel : ℕ) (s : List Char), s.length ≤ fuel →
    replaceP2F fuel s = replaceP2 s := by
  intro fuel
  induction fuel with
  | zero =>
    intro s h
    have : s = [] := List.length_eq_zero.mp (Nat.le_zero.mp h)
    subst this
    rw [replaceP2]
    rfl
  | succ fuel ih =>
    intro s h
    cases s with
    | nil => rw [replaceP2]; rfl
    | cons c cs =>
      rw [replaceP2]
      split
      next rest h0 =>
        split
        next m h1 =>
          have e1 := stripPre_length h0
          have e2 := p2Search_rest_lt h1
          have e3 : styleTag.length = 6 := rfl
          simp only [List.length_cons] at e1 h
          simp only [replaceP2F, h0, h1]
          rw [ih m.rest (by omega)]
        next h1 =>
          simp only [replaceP2F, h0, h1]
          rw [ih cs (by simp only [List.length_cons] at h; omega)]
      next h0 =>
        simp only [replaceP2F, h0]
        rw [ih cs (by simp only [List.length_cons] at h; omega)]

theorem replaceP3F_eq : ∀ (fuel : ℕ) (s : List Char), s.length ≤ fuel →
    replaceP3F fuel s = replaceP3 s := by
  intro fuel
  induction fuel with
  | zero =>
    intro s h
    have : s = [] := List.length_eq_zero.mp (Nat.le_zero.mp h)
    subst this
    rw [replaceP3]
    rfl
  | succ fuel ih =>
    intro s h
    cases s with
    | nil => rw [replaceP3]; rfl
    | cons c cs =>
      rw [replaceP3]
      split
      next rest h0 =>
        have e1 := stripPre_length h0
        have e3 : marginVTag.length = 8 := rfl
        simp only [List.length_cons] at e1 h
        by_cases hdig : rest.takeWhile (fun c => isDig c) = []
        · rw [if_pos hdig]
          simp only [replaceP3F, h0, if_pos hdig]
          rw [ih cs (by omega)]
        · rw [if_neg hdig]
          simp only [replaceP3F, h0, if_neg hdig]
          have e4 : (rest.drop (rest.takeWhile (fun c => isDig c)).length).length ≤ rest.length := by
            simp
          rw [ih _ (by omega)]
      next h0 =>
        simp only [replaceP3F, h0]
        rw [ih cs (by simp only [List.length_cons] at h; omega)]

/-- Fuel-indexed equivalent of the whole rewrite; see `modifyAssStylesF_eq`. -/
def modifyAssStylesF (f1 f2 f3 : ℕ) (s : List Char) : List Char :=
  replaceP3F f3 (replaceP2F f2 (replaceP1F f1 s))

theorem modifyAssStylesF_eq (f1 f2 f3 : ℕ) (s : List Char)
    (h1 : s.length ≤ f1) (h2 : (replaceP1 s).length ≤ f2)
    (h3 : (replaceP2 (replaceP1 s)).length ≤ f3) :
    modifyAssStylesF f1 f2 f3 s = modifyAssStyles s := by
  unfold modifyAssStylesF modifyAssStyles
  rw [replaceP1F_eq f1 s h1, replaceP2F_eq f2 _ h2, replaceP3F_eq f3 _ h3]

end VideoComposer

namespace VideoComposer

/-! ## Field extractors for ASS documents

These read a document independently of the rewrite machinery: split into
lines, and on each `Style:` line split the remainder into comma-separated
fields.  In the V4+ `Style:` format the fields are Name(0), Fontname(1),
Fontsize(2), four colours(3–6), Bold(7), Italic(8), Underline(9),
StrikeOut(10), ScaleX(11), ScaleY(12), Spacing(13), Angle(14),
BorderStyle(15), Outline(16), Shadow(17), Alignment(18), MarginL(19),
MarginR(20), MarginV(21), Encoding(22). -/

def splitLines : List Char → List (List Char)
  | [] => [[]]
  | c :: cs =>
    if c = nlC then [] :: splitLines cs
    else
      match splitLines cs with
      | [] => [[c]]
      | l :: ls => (c :: l) :: ls

def splitFieldsC : List Char → List (List Char)
  | [] => [[]]
  | c :: cs =>
    if c = ',' then [] :: splitFieldsC cs
    else
      match splitFieldsC cs with
      | [] => [[c]]
      | l :: ls => (c :: l) :: ls

/-- The `i`-th comma-separated field of every `Style:` line of a document. -/
def styleFieldAt (i : ℕ) (doc : List Char) : List (List Char) :=
  (splitLines doc).filterMap (fun l =>
    match stripPre styleTag l with
    | some r => (splitFieldsC r).get? i
    | none => none)

def fontsizeFields (doc : List Char) : List (List Char) := styleFieldAt 2 doc

def underlineFields (doc : List Char) : List (List Char) := styleFieldAt 9 doc

def scaleYFields (doc : List Char) : List (List Char) := styleFieldAt 12 doc

def marginLFields (doc : List Char) : List (List Char) := styleFieldAt 19 doc

def marginRFields (doc : List Char) : List (List Char) := styleFieldAt 20 doc

def marginVFields (doc : List Char) : List (List Char) := styleFieldAt 21 doc

/-- The standard V4+ style line used as failing input for C5 (Fontsize 48,
Underline -1 = on, ScaleX 100, ScaleY 100, MarginL 10, MarginR 10,
MarginV 40). -/
def c5Input : List Char :=
  "Style:Default,Arial,48,&H00FFFFFF,&H000000FF,&H00000000,&H00000000,0,0,-1,0,100,100,0,0,1,2,2,2,10,10,40,1".toList

/-- What the rewrite actually produces on `c5Input`. -/
def c5Output : List Char :=
  "Style:Default,Arial,72,&H00FFFFFF,&H000000FF,&H00000000,&H00000000,0,0,-1,0,100,260,0,0,1,2,2,2,10,10,40,1".toList

/-- Intermediate value after the font-size pass on `c5Input`. -/
def c5Mid : List Char :=
  "Style:Default,Arial,72,&H00FFFFFF,&H000000FF,&H00000000,&H00000000,0,0,-1,0,100,100,0,0,1,2,2,2,10,10,40,1".toList

/-- C5 (code bug): on a standard V4+ style line the rewrite increases the
font size by 24 (capped at 120) as claimed, but — contrary to the claim and
to the code's own comments (`sadece MarginV = 260`, "only MarginV = 260") —
it does not touch the vertical margin or the underline flag at all: the
second regex's lazy groups align its final `(\d+)` with the ScaleY field,
which is overwritten with 260, while MarginV stays 40 and Underline stays
-1. -/
theorem c5_margin_underline_rewrite_bug :
    modifyAssStyles c5Input = c5Output ∧
    fontsizeFields c5Input = [r"48".toList] ∧
    fontsizeFields c5Output = [r"72".toList] ∧
    marginVFields c5Input = [r"40".toList] ∧
    marginVFields c5Output = [r"40".toList] ∧
    underlineFields c5Input = [r"-1".toList] ∧
    underlineFields c5Output = [r"-1".toList] ∧
    scaleYFields c5Input = [r"100".toList] ∧
    scaleYFields c5Output = [r"260".toList] ∧
    marginLFields c5Output = [r"10".toList] ∧
    marginRFields c5Output = [r"10".toList] := by
  have e1 : replaceP1 c5Input = c5Mid := by
    rw [← replaceP1F_eq 200 c5Input (by decide)]
    decide
  have e2 : replaceP2 c5Mid = c5Output := by
    rw [← replaceP2F_eq 200 c5Mid (by decide)]
    decide
  have e3 : replaceP3 c5Output = c5Output := by
    rw [← replaceP3F_eq 200 c5Output (by decide)]
    decide
  refine ⟨?_, ?_, ?_, ?_, ?_, ?_, ?_, ?_, ?_, ?_, ?_⟩
  · rw [modifyAssStyles, e1, e2, e3]
  all_goals decide

end VideoComposer

namespace VideoComposer

/-- A subtitle text on which rewriting twice differs from rewriting once:
the first purely numeric comma-terminated field of this `Style:` line sits at
position 9, the Underline position, so the font-size regex aligns its
`(\d+)` capture there and grows it by 24 on every pass. -/
def c7CexInput : List Char := "Style:N,f,x,a,b,c,d,e,g,42,".toList

/-- Result of one rewrite of `c7CexInput`. -/
def c7CexOnce : List Char := "Style:N,f,x,a,b,c,d,e,g,66,".toList

/-- Result of two rewrites of `c7CexInput`. -/
def c7CexTwice : List Char := "Style:N,f,x,a,b,c,d,e,g,90,".toList

/-- C7 counterexample: applying `modifyAssStyles` twice does not, for every
subtitle text, yield the same underline field as applying it once — on
`c7CexInput` the Underline-position field is 66 after one application and 90
after two. -/
theorem c7_counterexample :
    underlineFields (modifyAssStyles (modifyAssStyles c7CexInput)) ≠
      underlineFields (modifyAssStyles c7CexInput) ∧
    modifyAssStyles c7CexInput = c7CexOnce ∧
    modifyAssStyles (modifyAssStyles c7CexInput) = c7CexTwice ∧
    underlineFields c7CexOnce = [r"66".toList] ∧
    underlineFields c7CexTwice = [r"90".toList] := by
  have e1 : replaceP1 c7CexInput = c7CexOnce := by
    rw [← replaceP1F_eq 60 c7CexInput (by decide)]
    decide
  have e2 : replaceP2 c7CexOnce = c7CexOnce := by
    rw [← replaceP2F_eq 60 c7CexOnce (by decide)]
    decide
  have e3 : replaceP3 c7CexOnce = c7CexOnce := by
    rw [← replaceP3F_eq 60 c7CexOnce (by decide)]
    decide
  have e4 : replaceP1 c7CexOnce = c7CexTwice := by
    rw [← replaceP1F_eq 60 c7CexOnce (by decide)]
    decide
  have e5 : replaceP2 c7CexTwice = c7CexTwice := by
    rw [← replaceP2F_eq 60 c7CexTwice (by decide)]
    decide
  have e6 : replaceP3 c7CexTwice = c7CexTwice := by
    rw [← replaceP3F_eq 60 c7CexTwice (by decide)]
    decide
  have h1 : modifyAssStyles c7CexInput = c7CexOnce := by
    rw [modifyAssStyles, e1, e2, e3]
  have h2 : modifyAssStyles (modifyAssStyles c7CexInput) = c7CexTwice := by
    rw [h1, modifyAssStyles, e4, e5, e6]
  rw [h2, h1]
  refine ⟨by decide, rfl, rfl, by decide, by decide⟩

end VideoComposer

namespace VideoComposer

/-! ## Decimal rendering facts -/

theorem digitChar_isDig {n : ℕ} (h : n < 10) : isDig (digitChar n) = true := by
  interval_cases n <;> decide

theorem digitChar_val {n : ℕ} (h : n < 10) : (digitChar n).toNat - 48 = n := by
  interval_cases n <;> decide

theorem natToDigits_small {n : ℕ} (h : n < 10) : natToDigits n = [digitChar n] := by
  unfold natToDigits
  cases n with
  | zero => rfl
  | succ m => simp [natToDigitsAux, h]

theorem natToDigitsAux_spec :
    ∀ (f n2 : ℕ) (acc : List Char), n2 ≤ f →
      natToDigitsAux f n2 acc = natToDigits n2 ++ acc := by
  intro f
  induction f with
  | zero =>
    intro n2 acc hle
    have : n2 = 0 := Nat.le_zero.mp hle
    subst this
    rfl
  | succ f ih =>
    intro n2 acc hle
    by_cases hsm : n2 < 10
    · simp only [natToDigitsAux, if_pos hsm, natToDigits_small hsm]
      rfl
    · have hdiv : n2 / 10 < n2 := Nat.div_lt_self (by omega) (by omega)
      simp only [natToDigitsAux, if_neg hsm]
      rw [ih (n2 / 10) _ (by omega)]
      have e2 : natToDigits n2 = natToDigits (n2 / 10) ++ [digitChar (n2 % 10)] := by
        have e3 : natToDigits n2 = natToDigitsAux (n2 - 1 + 1) n2 [] := by
          unfold natToDigits
          congr 1
          omega
        rw [e3]
        simp only [natToDigitsAux, if_neg hsm]
        rw [natToDigitsAux_fuel (n2 - 1) (n2 / 10) _ (by omega) f (by omega),
          ih (n2 / 10) _ (by omega)]
      rw [e2]
      simp

theorem natToDigits_step {n : ℕ} (h : ¬ n < 10) :
    natToDigits n = natToDigits (n / 10) ++ [digitChar (n % 10)] := by
  have e1 : natToDigits n = natToDigitsAux (n - 1 + 1) n [] := by
    unfold natToDigits
    congr 1
    omega
  rw [e1]
  simp only [natToDigitsAux, if_neg h]
  exact natToDigitsAux_spec (n - 1) (n / 10) [digitChar (n % 10)]
    (by have := Nat.div_lt_self (show 0 < n by omega) (show 1 < 10 by omega); omega)

theorem natToDigits_all_isDig : ∀ n, (natToDigits n).all isDig = true := by
  intro n
  induction n using Nat.strong_induction_on with
  | _ n ih =>
    by_cases h : n < 10
    · rw [natToDigits_small h]
      simp [digitChar_isDig h]
    · rw [natToDigits_step h]
      have hdiv : n / 10 < n := Nat.div_lt_self (by omega) (by omega)
      have h1 := ih (n / 10) hdiv
      have hm : n % 10 < 10 := Nat.mod_lt n (by omega)
      simp [List.all_append, h1, digitChar_isDig hm]

theorem natToDigits_ne_nil : ∀ n, natToDigits n ≠ [] := by
  intro n
  by_cases h : n < 10
  · rw [natToDigits_small h]
    simp
  · rw [natToDigits_step h]
    simp

theorem digitsToNat_append_singleton (a : List Char) (c : Char) :
    digitsToNat (a ++ [c]) = 10 * digitsToNat a + (c.toNat - 48) := by
  unfold digitsToNat
  rw [List.foldl_append]
  rfl

theorem digitsToNat_natToDigits : ∀ n, digitsToNat (natToDigits n) = n := by
  intro n
  induction n using Nat.strong_induction_on with
  | _ n ih =>
    by_cases h : n < 10
    · rw [natToDigits_small h]
      unfold digitsToNat
      simp [digitChar_val h]
    · have hm : n % 10 < 10 := Nat.mod_lt n (by omega)
      rw [natToDigits_step h, digitsToNat_append_singleton,
        ih (n / 10) (Nat.div_lt_self (by omega) (by omega)),
        digitChar_val hm]
      omega

end VideoComposer

namespace VideoComposer

/-! ## Occurrence reasoning for the literal patterns -/

/-- Whether the literal `pat` occurs anywhere in `s`. -/
def hasPat (pat : List Char) : List Char → Bool
  | [] => (stripPre pat ([] : List Char)).isSome
  | c :: cs => (stripPre pat (c :: cs)).isSome || hasPat pat cs

theorem stripPre_prefix (pat s : List Char) : stripPre pat (pat ++ s) = some s := by
  induction pat with
  | nil => rfl
  | cons p ps ih => simp [stripPre, ih]

theorem stripPre_get {pat s r : List Char} (h : stripPre pat s = some r) :
    ∀ j, j < pat.length → s.get? j = pat.get? j := by
  induction pat generalizing s with
  | nil => intro j hj; exact absurd hj (by simp)
  | cons p ps ih =>
    cases s with
    | nil => exact absurd h (by simp [stripPre])
    | cons c cs =>
      simp only [stripPre] at h
      split at h
      next hc =>
        intro j hj
        cases j with
        | zero => simp [hc]
        | succ j =>
          simp only [List.get?]
          exact ih h j (by simpa using hj)
      next => exact absurd h (by simp)

theorem stripPre_append_left {pat a b r : List Char}
    (h : stripPre pat (a ++ b) = some r) (hlen : pat.length ≤ a.length) :
    ∃ r2, stripPre pat a = some r2 := by
  induction pat generalizing a with
  | nil => exact ⟨a, rfl⟩
  | cons p ps ih =>
    cases a with
    | nil => simp at hlen
    | cons c cs =>
      simp only [List.cons_append, stripPre] at h ⊢
      split at h
      next hc =>
        rw [if_pos hc]
        exact ih h (by simpa using hlen)
      next hc =>
        exact absurd h (by simp)

theorem stripPre_length_le {pat s r : List Char} (h : stripPre pat s = some r) :
    pat.length ≤ s.length := by
  have := stripPre_length h
  omega

theorem hasPat_false_drop {pat s : List Char} (h : hasPat pat s = false) :
    ∀ i, stripPre pat (s.drop i) = none := by
  induction s with
  | nil =>
    intro i
    simp only [List.drop_nil]
    simp only [hasPat] at h
    cases hs : stripPre pat ([] : List Char) with
    | none => rfl
    | some r => rw [hs] at h; exact absurd h (by simp)
  | cons c cs ih =>
    intro i
    simp only [hasPat, Bool.or_eq_false_iff] at h
    cases i with
    | zero =>
      simp only [List.drop_zero]
      cases hs : stripPre pat (c :: cs) with
      | none => rfl
      | some r => rw [hs] at h; exact absurd h.1 (by simp)
    | succ i =>
      simp only [List.drop_succ_cons]
      exact ih h.2 i

theorem hasPat_false_of_lacks {pat x : List Char} {ch : Char}
    (hch : ch ∈ pat) (hx : ∀ c ∈ x, c ≠ ch) : hasPat pat x = false := by
  induction x with
  | nil =>
    simp only [hasPat]
    cases pat with
    | nil => exact absurd hch (by simp)
    | cons p ps => simp [stripPre]
  | cons c cs ih =>
    simp only [hasPat, Bool.or_eq_false_iff]
    constructor
    · cases hs : stripPre pat (c :: cs) with
      | none => rfl
      | some r =>
        obtain ⟨j, hget⟩ := List.mem_iff_get.mp hch
        have hw := stripPre_get hs j.val j.isLt
        have hx2 : (c :: cs).get? j.val = some ch := by
          rw [hw, List.get?_eq_get j.isLt, hget]
        have hmem : ch ∈ c :: cs := List.get?_mem hx2
        exact absurd rfl (hx ch hmem)
    · exact ih (fun d hd => hx d (List.mem_cons_of_mem c hd))

/-- The key skip condition: a pattern that does not occur in `x` and contains
no newline cannot start at any position of `x` inside `x ++ y` when `y` is
empty or starts with a newline. -/
theorem stripPre_none_within {pat x y : List Char}
    (hnl : nlC ∉ pat)
    (hx : hasPat pat x = false)
    (hy : y = [] ∨ y.head? = some nlC) :
    ∀ i, i < x.length → stripPre pat ((x ++ y).drop i) = none := by
  intro i hi
  cases hs : stripPre pat ((x ++ y).drop i) with
  | none => rfl
  | some r =>
    exfalso
    rw [List.drop_append_of_le_length (le_of_lt hi)] at hs
    by_cases hlen : pat.length ≤ (x.drop i).length
    · obtain ⟨r2, hr2⟩ := stripPre_append_left hs hlen
      have hnone := hasPat_false_drop hx i
      rw [hnone] at hr2
      exact absurd hr2 (by simp)
    · push_neg at hlen
      cases hy with
      | inl hy =>
        subst hy
        rw [List.append_nil] at hs
        have h2 := stripPre_length_le hs
        omega
      | inr hy =>
        cases y with
        | nil => simp at hy
        | cons d ys =>
          simp at hy
          subst hy
          have hW := stripPre_get hs (x.drop i).length hlen
          have hx2 : (x.drop i ++ nlC :: ys).get? (x.drop i).length = some nlC := by
            rw [List.get?_append_right (le_refl _)]
            simp
          rw [hx2] at hW
          have : nlC ∈ pat := List.get?_mem hW.symm
          exact hnl this

end VideoComposer

namespace VideoComposer

/-! ## Step and skip lemmas for the global-replace drivers -/

theorem replaceP1_nil : replaceP1 [] = [] := by
  rw [replaceP1]

theorem replaceP1_cons_none {c : Char} {cs : List Char}
    (h : stripPre styleTag (c :: cs) = none) :
    replaceP1 (c :: cs) = c :: replaceP1 cs := by
  rw [replaceP1]
  split
  next rest h0 =>
    rw [h] at h0
    exact absurd h0 (by simp)
  next h0 => rfl

theorem replaceP1_cons_match {c : Char} {cs rest : List Char} {m : P1Match}
    (h0 : stripPre styleTag (c :: cs) = some rest) (h1 : p1Search rest = some m) :
    replaceP1 (c :: cs) = styleTag ++ m.nameCapture ++ [','] ++ m.fontField ++ [','] ++
      newFontSize m.sizeField ++ [','] ++ replaceP1 m.rest := by
  rw [replaceP1]
  split
  next rest2 h02 =>
    rw [h0] at h02
    injection h02 with h02
    subst h02
    split
    next m2 h12 =>
      rw [h1] at h12
      injection h12 with h12
      subst h12
      rfl
    next h12 =>
      rw [h1] at h12
      exact absurd h12 (by simp)
  next h02 =>
    rw [h0] at h02
    exact absurd h02 (by simp)

theorem replaceP2_nil : replaceP2 [] = [] := by
  rw [replaceP2]

theorem replaceP2_cons_none {c : Char} {cs : List Char}
    (h : stripPre styleTag (c :: cs) = none) :
    replaceP2 (c :: cs) = c :: replaceP2 cs := by
  rw [replaceP2]
  split
  next rest h0 =>
    rw [h] at h0
    exact absurd h0 (by simp)
  next h0 => rfl

theorem replaceP2_cons_match {c : Char} {cs rest : List Char} {m : P2Match}
    (h0 : stripPre styleTag (c :: cs) = some rest) (h1 : p2Search rest = some m) :
    replaceP2 (c :: cs) = styleTag ++ m.headCapture ++ [','] ++ chunksRender m.skipped ++
      m.num1 ++ [','] ++ m.num2 ++ [','] ++ marginTarget ++ replaceP2 m.rest := by
  rw [replaceP2]
  split
  next rest2 h02 =>
    rw [h0] at h02
    injection h02 with h02
    subst h02
    split
    next m2 h12 =>
      rw [h1] at h12
      injection h12 with h12
      subst h12
      rfl
    next h12 =>
      rw [h1] at h12
      exact absurd h12 (by simp)
  next h02 =>
    rw [h0] at h02
    exact absurd h02 (by simp)

theorem replaceP3_nil : replaceP3 [] = [] := by
  rw [replaceP3]

theorem replaceP3_cons_none {c : Char} {cs : List Char}
    (h : stripPre marginVTag (c :: cs) = none) :
    replaceP3 (c :: cs) = c :: replaceP3 cs := by
  rw [replaceP3]
  split
  next rest h0 =>
    rw [h] at h0
    exact absurd h0 (by simp)
  next h0 => rfl

theorem replaceP1_skip : ∀ (x y : List Char),
    (∀ i, i < x.length → stripPre styleTag ((x ++ y).drop i) = none) →
    replaceP1 (x ++ y) = x ++ replaceP1 y := by
  intro x
  induction x with
  | nil => intro y _; rfl
  | cons c cs ih =>
    intro y h
    have h0 := h 0 (by simp)
    rw [List.drop_zero, List.cons_append] at h0
    have hrec : ∀ i, i < cs.length → stripPre styleTag ((cs ++ y).drop i) = none := by
      intro i hi
      have h2 := h (i + 1) (by simp only [List.length_cons]; omega)
      rw [List.cons_append, List.drop_succ_cons] at h2
      exact h2
    rw [List.cons_append, replaceP1_cons_none h0, ih y hrec]
    rfl

theorem replaceP2_skip : ∀ (x y : List Char),
    (∀ i, i < x.length → stripPre styleTag ((x ++ y).drop i) = none) →
    replaceP2 (x ++ y) = x ++ replaceP2 y := by
  intro x
  induction x with
  | nil => intro y _; rfl
  | cons c cs ih =>
    intro y h
    have h0 := h 0 (by simp)
    rw [List.drop_zero, List.cons_append] at h0
    have hrec : ∀ i, i < cs.length → stripPre styleTag ((cs ++ y).drop i) = none := by
      intro i hi
      have h2 := h (i + 1) (by simp only [List.length_cons]; omega)
      rw [List.cons_append, List.drop_succ_cons] at h2
      exact h2
    rw [List.cons_append, replaceP2_cons_none h0, ih y hrec]
    rfl

theorem replaceP3_skip : ∀ (x y : List Char),
    (∀ i, i < x.length → stripPre marginVTag ((x ++ y).drop i) = none) →
    replaceP3 (x ++ y) = x ++ replaceP3 y := by
  intro x
  induction x with
  | nil => intro y _; rfl
  | cons c cs ih =>
    intro y h
    have h0 := h 0 (by simp)
    rw [List.drop_zero, List.cons_append] at h0
    have hrec : ∀ i, i < cs.length → stripPre marginVTag ((cs ++ y).drop i) = none := by
      intro i hi
      have h2 := h (i + 1) (by simp only [List.length_cons]; omega)
      rw [List.cons_append, List.drop_succ_cons] at h2
      exact h2
    rw [List.cons_append, replaceP3_cons_none h0, ih y hrec]
    rfl

end VideoComposer

namespace VideoComposer

/-! ## Symbolic evaluation of the matchers on well-formed fields -/

/-- Characters allowed inside a well-formed style-line field: no separator
comma, no line terminator, no colon (so no nested `Style:`), no equals sign
(so no nested `MarginV=`). -/
def fieldCharOK (c : Char) : Bool :=
  c ≠ ',' && c ≠ nlC && c ≠ '\r' && c ≠ ':' && c ≠ '='

def fieldOK (f : List Char) : Bool := f.all fieldCharOK

/-- Nonempty all-digits field. -/
def numOK (f : List Char) : Bool := !f.isEmpty && f.all isDig

theorem isDig_fieldCharOK {c : Char} (h : isDig c = true) : fieldCharOK c = true := by
  simp only [isDig, Bool.and_eq_true, decide_eq_true_eq] at h
  simp only [fieldCharOK, nlC, Bool.and_eq_true, decide_eq_true_eq, ne_eq]
  obtain ⟨h1, h2⟩ := h
  refine ⟨⟨⟨⟨?_, ?_⟩, ?_⟩, ?_⟩, ?_⟩ <;> intro he <;> subst he <;> revert h1 h2 <;> decide

theorem numOK_fieldOK {f : List Char} (h : numOK f = true) : fieldOK f = true := by
  simp only [numOK, Bool.and_eq_true, List.all_eq_true] at h
  simp only [fieldOK, List.all_eq_true]
  intro c hc
  exact isDig_fieldCharOK (h.2 c hc)

theorem splitOnComma_field {f z : List Char} (hf : ∀ c ∈ f, c ≠ ',') :
    splitOnComma (f ++ ',' :: z) = some (f, z) := by
  induction f with
  | nil => simp [splitOnComma]
  | cons c cs ih =>
    have hc : c ≠ ',' := hf c (by simp)
    simp only [List.cons_append, splitOnComma, if_neg hc, List.append_eq]
    rw [ih (fun d hd => hf d (by simp [hd]))]

theorem splitOnCommaDot_field {f z : List Char}
    (hf : ∀ c ∈ f, c ≠ ',' ∧ isDotChar c = true) :
    splitOnCommaDot (f ++ ',' :: z) = some (f, z) := by
  induction f with
  | nil => simp [splitOnCommaDot]
  | cons c cs ih =>
    obtain ⟨hc, hd⟩ := hf c (by simp)
    simp only [List.cons_append, splitOnCommaDot, if_neg hc, if_pos hd, List.append_eq]
    rw [ih (fun d hd2 => hf d (by simp [hd2]))]

theorem fieldOK_chars {f : List Char} (hf : fieldOK f = true) :
    ∀ c ∈ f, c ≠ ',' ∧ isDotChar c = true := by
  intro c hc
  simp only [fieldOK, List.all_eq_true] at hf
  have := hf c hc
  simp only [fieldCharOK, Bool.and_eq_true, decide_eq_true_eq, ne_eq] at this
  obtain ⟨⟨⟨⟨h1, h2⟩, h3⟩, h4⟩, h5⟩ := this
  refine ⟨h1, ?_⟩
  simp only [isDotChar, Bool.and_eq_true, decide_eq_true_eq, ne_eq]
  exact ⟨by simpa [nlC] using h2, h3⟩

theorem p1Tail_fields {fontname fontsize z : List Char}
    (h1 : fieldOK fontname = true) (h2 : ¬ fontname = [])
    (h3 : numOK fontsize = true) :
    p1Tail (fontname ++ ',' :: (fontsize ++ ',' :: z)) = some ⟨fontname, fontsize, z⟩ := by
  unfold p1Tail
  rw [splitOnComma_field (fun c hc => (fieldOK_chars h1 c hc).1)]
  simp only [if_neg h2]
  rw [splitOnComma_field (fun c hc => (fieldOK_chars (numOK_fieldOK h3) c hc).1)]
  have h4 : fontsize ≠ [] ∧ fontsize.all isDig := by
    simp only [numOK, Bool.and_eq_true] at h3
    constructor
    · intro he
      subst he
      simp at h3
    · exact h3.2
  simp only [if_pos h4]

end VideoComposer

namespace VideoComposer

theorem p1Search_of_tail {name z : List Char} {t : P1Tail}
    (hname : fieldOK name = true) (ht : p1Tail z = some t) :
    p1Search (name ++ ',' :: z) = some ⟨name, t.fontField, t.sizeField, t.rest⟩ := by
  induction name with
  | nil =>
    simp [p1Search, ht]
  | cons c cs ih =>
    obtain ⟨hc, hd⟩ := fieldOK_chars hname c (by simp)
    have hcs : fieldOK cs = true := by
      simp only [fieldOK, List.all_eq_true] at hname ⊢
      exact fun d hdm => hname d (by simp [hdm])
    simp [p1Search, hc, hd, ih hcs]

theorem chunksN_field {n : ℕ} {g z : List Char} {gs : List (List Char)} {r : List Char}
    (hg : ∀ c ∈ g, c ≠ ',') (h : chunksN n z = some (gs, r)) :
    chunksN (n + 1) (g ++ ',' :: z) = some (g :: gs, r) := by
  simp only [chunksN, splitOnComma_field hg, h]

theorem takeWhile_digits {d z : List Char} (hd : d.all isDig = true) {b : Char}
    (hb : isDig b = false) :
    (d ++ b :: z).takeWhile (fun c => isDig c) = d ∧
    (d ++ b :: z).drop d.length = b :: z := by
  constructor
  · induction d with
    | nil => simp [List.takeWhile, hb]
    | cons e es ih =>
      simp only [List.all_cons, Bool.and_eq_true] at hd
      simp only [List.cons_append, List.takeWhile_cons, hd.1]
      rw [ih hd.2]
      simp
  · rw [List.drop_append_of_le_length (le_refl _)]
    simp

end VideoComposer

namespace VideoComposer

theorem chunksN_fields :
    ∀ (gs : List (List Char)) (z : List Char),
      (∀ g ∈ gs, ∀ c ∈ g, c ≠ ',') →
      chunksN gs.length (chunksRender gs ++ z) = some (gs, z) := by
  intro gs
  induction gs with
  | nil => intro z _; rfl
  | cons g gs ih =>
    intro z hg
    have e : chunksRender (g :: gs) ++ z = g ++ ',' :: (chunksRender gs ++ z) := by
      simp [chunksRender]
    rw [List.length_cons, e]
    exact chunksN_field (hg g (by simp)) (ih z (fun g2 hg2 => hg g2 (by simp [hg2])))

theorem numOK_ne_nil {f : List Char} (h : numOK f = true) : f ≠ [] := by
  intro he
  subst he
  simp [numOK] at h

theorem numOK_no_comma {f : List Char} (h : numOK f = true) : ∀ c ∈ f, c ≠ ',' :=
  fun c hc => (fieldOK_chars (numOK_fieldOK h) c hc).1

theorem p2Tail_fields {gs : List (List Char)} {d1 d2 d3 t : List Char}
    (hgs : ∀ g ∈ gs, ∀ c ∈ g, c ≠ ',') (hlen : gs.length = 9)
    (h1 : numOK d1 = true) (h2 : numOK d2 = true) (h3 : numOK d3 = true) :
    p2Tail (chunksRender gs ++ (d1 ++ ',' :: (d2 ++ ',' :: (d3 ++ ',' :: t)))) =
      some (gs, d1, d2, d3, ',' :: t) := by
  have e1 : d1 ≠ [] ∧ d1.all isDig = true := ⟨numOK_ne_nil h1, by
    simp only [numOK, Bool.and_eq_true] at h1
    exact h1.2⟩
  have e2 : d2 ≠ [] ∧ d2.all isDig = true := ⟨numOK_ne_nil h2, by
    simp only [numOK, Bool.and_eq_true] at h2
    exact h2.2⟩
  have h3d : d3.all isDig = true := by
    simp only [numOK, Bool.and_eq_true] at h3
    exact h3.2
  obtain ⟨etake, edrop⟩ := takeWhile_digits (z := t) h3d (b := ',') (by decide)
  simp only [p2Tail, ← hlen,
    chunksN_fields gs (d1 ++ ',' :: (d2 ++ ',' :: (d3 ++ ',' :: t))) hgs,
    splitOnComma_field (numOK_no_comma h1), if_pos e1,
    splitOnComma_field (numOK_no_comma h2), if_pos e2,
    etake, edrop, if_neg (numOK_ne_nil h3)]

theorem p2Search_of_tail {name z : List Char}
    {gs : List (List Char)} {d1 d2 d3 r : List Char}
    (hname : fieldOK name = true) (ht : p2Tail z = some (gs, d1, d2, d3, r)) :
    p2Search (name ++ ',' :: z) = some ⟨name, gs, d1, d2, d3, r⟩ := by
  induction name with
  | nil =>
    simp [p2Search, ht]
  | cons c cs ih =>
    obtain ⟨hc, hd⟩ := fieldOK_chars hname c (by simp)
    have hcs : fieldOK cs = true := by
      simp only [fieldOK, List.all_eq_true] at hname ⊢
      exact fun d hdm => hname d (by simp [hdm])
    simp [p2Search, hc, hd, ih hcs]

end VideoComposer

namespace VideoComposer

/-! ## Well-formed ASS documents -/

/-- A standard 23-field V4+ `Style:` line, with the six colour/bold/italic
fields and the six spacing-through-alignment fields kept as grouped lists. -/
structure StyleLine where
  name : List Char
  fontname : List Char
  fontsize : List Char
  colBoldItalic : List (List Char)
  underline : List Char
  strikeout : List Char
  scaleX : List Char
  scaleY : List Char
  midFields : List (List Char)
  marginL : List Char
  marginR : List Char
  marginV : List Char
  encoding : List Char
  deriving DecidableEq, Repr

/-- Fields 13–18 (Spacing … Alignment) and 19–22 (margins, encoding). -/
def tailFields (st : StyleLine) : List Char :=
  chunksRender st.midFields ++ (st.marginL ++ ',' :: (st.marginR ++ ',' ::
    (st.marginV ++ ',' :: st.encoding)))

/-- Everything after the Fontsize comma. -/
def afterSize (st : StyleLine) : List Char :=
  chunksRender st.colBoldItalic ++ (st.underline ++ ',' :: (st.strikeout ++ ',' ::
    (st.scaleX ++ ',' :: (st.scaleY ++ ',' :: tailFields st))))

def StyleLine.render (st : StyleLine) : List Char :=
  styleTag ++ (st.name ++ ',' :: (st.fontname ++ ',' :: (st.fontsize ++ ',' ::
    afterSize st)))

def StyleLine.ok (st : StyleLine) : Bool :=
  fieldOK st.name && fieldOK st.fontname && !st.fontname.isEmpty &&
  numOK st.fontsize &&
  decide (st.colBoldItalic.length = 6) && st.colBoldItalic.all fieldOK &&
  fieldOK st.underline &&
  numOK st.strikeout && numOK st.scaleX && numOK st.scaleY &&
  decide (st.midFields.length = 6) && st.midFields.all fieldOK &&
  fieldOK st.marginL && fieldOK st.marginR && fieldOK st.marginV && fieldOK st.encoding

/-- A line of a well-formed document: a standard style line, or any other
line (no `Style:` or `MarginV=` occurrence, no line terminator). -/
inductive AssLine where
  | style : StyleLine → AssLine
  | other : List Char → AssLine
  deriving DecidableEq, Repr

def AssLine.ok : AssLine → Bool
  | AssLine.style st => st.ok
  | AssLine.other l =>
    !(hasPat styleTag l) && !(hasPat marginVTag l) &&
      l.all (fun c => c ≠ nlC && c ≠ '\r')

def AssLine.render : AssLine → List Char
  | AssLine.style st => st.render
  | AssLine.other l => l

/-- Render a document, lines separated by newlines. -/
def renderDoc : List AssLine → List Char
  | [] => []
  | [l] => l.render
  | l :: l2 :: rest => l.render ++ nlC :: renderDoc (l2 :: rest)

/-- Effect of the font-size pass on a style line. -/
def lineP1 : AssLine → AssLine
  | AssLine.style st => AssLine.style { st with fontsize := newFontSize st.fontsize }
  | AssLine.other l => AssLine.other l

/-- Effect of the second pass on a style line: ScaleY (not MarginV) becomes 260. -/
def lineP2 : AssLine → AssLine
  | AssLine.style st => AssLine.style { st with scaleY := marginTarget }
  | AssLine.other l => AssLine.other l

end VideoComposer
namespace VideoComposer

/-! ## Structural facts used to evaluate the rewrites on well-formed lines -/

theorem stripPre_cons_ne {p c : Char} {ps cs : List Char} (h : c ≠ p) :
    stripPre (p :: ps) (c :: cs) = none := by
  simp [stripPre, h]

theorem hasPat_stripPre_none {pat s : List Char} (h : hasPat pat s = false) :
    stripPre pat s = none := by
  have := hasPat_false_drop h 0
  simpa using this

theorem chunksRender_nil : chunksRender [] = [] := rfl

theorem chunksRender_cons (g : List Char) (gs : List (List Char)) :
    chunksRender (g :: gs) = g ++ ',' :: chunksRender gs := by
  simp [chunksRender]

theorem chunksRender_append (a b : List (List Char)) :
    chunksRender (a ++ b) = chunksRender a ++ chunksRender b := by
  simp [chunksRender]

/-- Every character is a comma or an allowed field character. -/
def commaFields (l : List Char) : Prop := ∀ c ∈ l, c = ',' ∨ fieldCharOK c = true

theorem commaFields_append {a b : List Char}
    (ha : commaFields a) (hb : commaFields b) : commaFields (a ++ b) := by
  intro c hc
  rcases List.mem_append.mp hc with h | h
  · exact ha c h
  · exact hb c h

theorem commaFields_cons_comma {l : List Char} (hl : commaFields l) :
    commaFields (',' :: l) := by
  intro c hc
  rcases List.mem_cons.mp hc with h | h
  · exact Or.inl h
  · exact hl c h

theorem commaFields_of_fieldOK {f : List Char} (hf : fieldOK f = true) :
    commaFields f := by
  intro c hc
  simp only [fieldOK, List.all_eq_true] at hf
  exact Or.inr (hf c hc)

theorem commaFields_chunksRender {gs : List (List Char)}
    (hgs : ∀ g ∈ gs, fieldOK g = true) : commaFields (chunksRender gs) := by
  induction gs with
  | nil => intro c hc; simp [chunksRender] at hc
  | cons g gs ih =>
    rw [chunksRender_cons]
    exact commaFields_append (commaFields_of_fieldOK (hgs g (by simp)))
      (commaFields_cons_comma (ih (fun g2 hg2 => hgs g2 (by simp [hg2]))))

theorem commaFields_no_colon {l : List Char} (hl : commaFields l) :
    ∀ c ∈ l, c ≠ ':' := by
  intro c hc he
  subst he
  rcases hl _ hc with h | h
  · exact absurd h (by decide)
  · exact absurd h (by decide)

theorem commaFields_no_nl {l : List Char} (hl : commaFields l) :
    ∀ c ∈ l, c ≠ nlC := by
  intro c hc he
  subst he
  rcases hl _ hc with h | h
  · exact absurd h (by decide)
  · exact absurd h (by decide)

theorem commaFields_no_eq {l : List Char} (hl : commaFields l) :
    ∀ c ∈ l, c ≠ '=' := by
  intro c hc he
  subst he
  rcases hl _ hc with h | h
  · exact absurd h (by decide)
  · exact absurd h (by decide)

end VideoComposer
namespace VideoComposer

theorem StyleLine.ok_iff {st : StyleLine} : st.ok = true ↔
    (fieldOK st.name = true ∧ fieldOK st.fontname = true ∧ st.fontname ≠ [] ∧
    numOK st.fontsize = true ∧ st.colBoldItalic.length = 6 ∧
    (∀ g ∈ st.colBoldItalic, fieldOK g = true) ∧ fieldOK st.underline = true ∧
    numOK st.strikeout = true ∧ numOK st.scaleX = true ∧ numOK st.scaleY = true ∧
    st.midFields.length = 6 ∧ (∀ g ∈ st.midFields, fieldOK g = true) ∧
    fieldOK st.marginL = true ∧ fieldOK st.marginR = true ∧
    fieldOK st.marginV = true ∧ fieldOK st.encoding = true) := by
  simp only [StyleLine.ok, Bool.and_eq_true, decide_eq_true_eq, List.all_eq_true,
    Bool.not_eq_true', List.isEmpty_eq_false_iff_exists_mem]
  constructor
  · rintro ⟨⟨⟨⟨⟨⟨⟨⟨⟨⟨⟨⟨⟨⟨⟨h1, h2⟩, h3⟩, h4⟩, h5⟩, h6⟩, h7⟩, h8⟩, h9⟩, h10⟩,
      h11⟩, h12⟩, h13⟩, h14⟩, h15⟩, h16⟩
    obtain ⟨a, ha⟩ := h3
    exact ⟨h1, h2, fun he => by simp [he] at ha, h4, h5, h6, h7, h8, h9, h10,
      h11, h12, h13, h14, h15, h16⟩
  · rintro ⟨h1, h2, h3, h4, h5, h6, h7, h8, h9, h10, h11, h12, h13, h14, h15, h16⟩
    refine ⟨⟨⟨⟨⟨⟨⟨⟨⟨⟨⟨⟨⟨⟨⟨h1, h2⟩, ?_⟩, h4⟩, h5⟩, h6⟩, h7⟩, h8⟩, h9⟩, h10⟩,
      h11⟩, h12⟩, h13⟩, h14⟩, h15⟩, h16⟩
    cases he : st.fontname with
    | nil => exact absurd he h3
    | cons a t => exact ⟨a, by simp [he]⟩

theorem tailFields_commaFields {st : StyleLine} (hok : st.ok = true) :
    commaFields (tailFields st) := by
  obtain ⟨-, -, -, -, -, -, -, -, -, -, -, h12, h13, h14, h15, h16⟩ :=
    StyleLine.ok_iff.mp hok
  exact commaFields_append (commaFields_chunksRender h12)
    (commaFields_append (commaFields_of_fieldOK h13)
      (commaFields_cons_comma (commaFields_append (commaFields_of_fieldOK h14)
        (commaFields_cons_comma (commaFields_append (commaFields_of_fieldOK h15)
          (commaFields_cons_comma (commaFields_of_fieldOK h16)))))))

theorem afterSize_commaFields {st : StyleLine} (hok : st.ok = true) :
    commaFields (afterSize st) := by
  obtain ⟨-, -, -, -, -, h6, h7, h8, h9, h10, -, -, -, -, -, -⟩ :=
    StyleLine.ok_iff.mp hok
  exact commaFields_append (commaFields_chunksRender h6)
    (commaFields_append (commaFields_of_fieldOK h7)
      (commaFields_cons_comma (commaFields_append (commaFields_of_fieldOK (numOK_fieldOK h8))
        (commaFields_cons_comma (commaFields_append (commaFields_of_fieldOK (numOK_fieldOK h9))
          (commaFields_cons_comma (commaFields_append (commaFields_of_fieldOK (numOK_fieldOK h10))
            (commaFields_cons_comma (tailFields_commaFields hok)))))))))

/-- Every character of a well-formed style line render is a tag character, a
comma, or an allowed field character. -/
theorem styleRender_chars {st : StyleLine} (hok : st.ok = true) :
    ∀ c ∈ st.render, c ∈ styleTag ∨ c = ',' ∨ fieldCharOK c = true := by
  obtain ⟨h1, h2, -, h4, -, -, -, -, -, -, -, -, -, -, -, -⟩ :=
    StyleLine.ok_iff.mp hok
  intro c hc
  simp only [StyleLine.render, List.mem_append, List.mem_cons] at hc
  rcases hc with h | h | h | h | h | h | h
  · exact Or.inl h
  · exact Or.inr ((commaFields_of_fieldOK h1) c h)
  · exact Or.inr (Or.inl h)
  · exact Or.inr ((commaFields_of_fieldOK h2) c h)
  · exact Or.inr (Or.inl h)
  · exact Or.inr ((commaFields_of_fieldOK (numOK_fieldOK h4)) c h)
  · rcases h with h | h
    · exact Or.inr (Or.inl h)
    · exact Or.inr ((afterSize_commaFields hok) c h)

end VideoComposer
namespace VideoComposer

theorem styleRender_no_nl {st : StyleLine} (hok : st.ok = true) :
    ∀ c ∈ st.render, c ≠ nlC := by
  intro c hc he
  subst he
  rcases styleRender_chars hok _ hc with h | h | h
  · exact absurd h (by decide)
  · exact absurd h (by decide)
  · exact absurd h (by decide)

theorem styleRender_noPat3 {st : StyleLine} (hok : st.ok = true) :
    hasPat marginVTag st.render = false := by
  refine hasPat_false_of_lacks (show ('=') ∈ marginVTag by decide) ?_
  intro c hc he
  subst he
  rcases styleRender_chars hok _ hc with h | h | h
  · exact absurd h (by decide)
  · exact absurd h (by decide)
  · exact absurd h (by decide)

theorem replaceP1_match {s rest : List Char} {m : P1Match}
    (h0 : stripPre styleTag s = some rest) (h1 : p1Search rest = some m) :
    replaceP1 s = styleTag ++ m.nameCapture ++ [','] ++ m.fontField ++ [','] ++
      newFontSize m.sizeField ++ [','] ++ replaceP1 m.rest := by
  cases s with
  | nil =>
    rw [show stripPre styleTag [] = none from rfl] at h0
    exact absurd h0 (by simp)
  | cons c cs => exact replaceP1_cons_match h0 h1

theorem replaceP2_match {s rest : List Char} {m : P2Match}
    (h0 : stripPre styleTag s = some rest) (h1 : p2Search rest = some m) :
    replaceP2 s = styleTag ++ m.headCapture ++ [','] ++ chunksRender m.skipped ++
      m.num1 ++ [','] ++ m.num2 ++ [','] ++ marginTarget ++ replaceP2 m.rest := by
  cases s with
  | nil =>
    rw [show stripPre styleTag [] = none from rfl] at h0
    exact absurd h0 (by simp)
  | cons c cs => exact replaceP2_cons_match h0 h1

/-- The first rewrite on a well-formed style line followed by nothing or a
newline: the font-size field is rewritten and nothing else changes. -/
theorem replaceP1_style (st : StyleLine) (y : List Char) (hok : st.ok = true)
    (hy : y = [] ∨ y.head? = some nlC) :
    replaceP1 (st.render ++ y) =
      StyleLine.render { st with fontsize := newFontSize st.fontsize } ++ replaceP1 y := by
  obtain ⟨h1, h2, h3, h4, -, -, -, -, -, -, -, -, -, -, -, -⟩ :=
    StyleLine.ok_iff.mp hok
  have hform : st.render ++ y = styleTag ++ (st.name ++ ',' :: (st.fontname ++ ',' ::
      (st.fontsize ++ ',' :: (afterSize st ++ y)))) := by
    simp [StyleLine.render, List.append_assoc]
  have htail : p1Tail (st.fontname ++ ',' :: (st.fontsize ++ ',' :: (afterSize st ++ y))) =
      some ⟨st.fontname, st.fontsize, afterSize st ++ y⟩ := p1Tail_fields h2 h3 h4
  have hsearch := p1Search_of_tail h1 htail
  have h0 : stripPre styleTag (st.render ++ y) = some (st.name ++ ',' :: (st.fontname ++ ',' ::
      (st.fontsize ++ ',' :: (afterSize st ++ y)))) := by
    rw [hform]; exact stripPre_prefix _ _
  have hskip : replaceP1 (afterSize st ++ y) = afterSize st ++ replaceP1 y :=
    replaceP1_skip _ _ (stripPre_none_within (by decide)
      (hasPat_false_of_lacks (show (':') ∈ styleTag by decide)
        (commaFields_no_colon (afterSize_commaFields hok))) hy)
  rw [replaceP1_match h0 hsearch]
  simp only [hskip]
  simp [StyleLine.render, afterSize, tailFields, List.append_assoc]

end VideoComposer
namespace VideoComposer

/-- The second rewrite on a well-formed style line followed by nothing or a
newline: the ScaleY field (the trailing digit run of the match) becomes 260
and nothing else changes — in particular MarginV is untouched. -/
theorem replaceP2_style (st : StyleLine) (y : List Char) (hok : st.ok = true)
    (hy : y = [] ∨ y.head? = some nlC) :
    replaceP2 (st.render ++ y) =
      StyleLine.render { st with scaleY := marginTarget } ++ replaceP2 y := by
  obtain ⟨h1, h2, h3, h4, h5, h6, h7, h8, h9, h10, -, -, -, -, -, -⟩ :=
    StyleLine.ok_iff.mp hok
  have hgs : ∀ g ∈ st.fontname :: st.fontsize :: (st.colBoldItalic ++ [st.underline]),
      ∀ c ∈ g, c ≠ ',' := by
    intro g hg
    rcases List.mem_cons.mp hg with hg | hg
    · subst hg; exact fun c hc => (fieldOK_chars h2 c hc).1
    rcases List.mem_cons.mp hg with hg | hg
    · subst hg; exact fun c hc => (fieldOK_chars (numOK_fieldOK h4) c hc).1
    rcases List.mem_append.mp hg with hg | hg
    · exact fun c hc => (fieldOK_chars (h6 g hg) c hc).1
    · rw [List.mem_singleton.mp hg]; exact fun c hc => (fieldOK_chars h7 c hc).1
  have hglen : (st.fontname :: st.fontsize :: (st.colBoldItalic ++ [st.underline])).length = 9 := by
    simp [h5]
  have htail := p2Tail_fields (t := tailFields st ++ y) hgs hglen h8 h9 h10
  have hsearch := p2Search_of_tail h1 htail
  have hform : st.render ++ y = styleTag ++ (st.name ++ ',' ::
      (chunksRender (st.fontname :: st.fontsize :: (st.colBoldItalic ++ [st.underline])) ++
        (st.strikeout ++ ',' :: (st.scaleX ++ ',' ::
          (st.scaleY ++ ',' :: (tailFields st ++ y)))))) := by
    simp [StyleLine.render, afterSize, chunksRender, List.append_assoc]
  have h0 : stripPre styleTag (st.render ++ y) = some (st.name ++ ',' ::
      (chunksRender (st.fontname :: st.fontsize :: (st.colBoldItalic ++ [st.underline])) ++
        (st.strikeout ++ ',' :: (st.scaleX ++ ',' ::
          (st.scaleY ++ ',' :: (tailFields st ++ y)))))) := by
    rw [hform]; exact stripPre_prefix _ _
  have hcomma : stripPre styleTag (',' :: (tailFields st ++ y)) = none := by
    rw [show styleTag = 'S' :: "tyle:".toList from rfl]
    exact stripPre_cons_ne (by decide)
  have hskip : replaceP2 (tailFields st ++ y) = tailFields st ++ replaceP2 y :=
    replaceP2_skip _ _ (stripPre_none_within (by decide)
      (hasPat_false_of_lacks (show (':') ∈ styleTag by decide)
        (commaFields_no_colon (tailFields_commaFields hok))) hy)
  rw [replaceP2_match h0 hsearch]
  simp only [replaceP2_cons_none hcomma, hskip]
  simp [StyleLine.render, afterSize, tailFields, chunksRender, List.append_assoc]

end VideoComposer
namespace VideoComposer

theorem assLineOk_other {l : List Char} (h : (AssLine.other l).ok = true) :
    hasPat styleTag l = false ∧ hasPat marginVTag l = false ∧
      ∀ c ∈ l, c ≠ nlC := by
  simp only [AssLine.ok, Bool.and_eq_true, Bool.not_eq_true', List.all_eq_true,
    Bool.and_eq_true, decide_eq_true_eq, ne_eq] at h
  exact ⟨h.1.1, h.1.2, fun c hc => (h.2 c hc).1⟩

theorem lineRender_no_nl {l : AssLine} (h : l.ok = true) :
    ∀ c ∈ l.render, c ≠ nlC := by
  cases l with
  | style st => exact styleRender_no_nl h
  | other t => exact (assLineOk_other h).2.2

/-- The first rewrite on any single well-formed line. -/
theorem replaceP1_line (l : AssLine) (y : List Char) (hok : l.ok = true)
    (hy : y = [] ∨ y.head? = some nlC) :
    replaceP1 (l.render ++ y) = (lineP1 l).render ++ replaceP1 y := by
  cases l with
  | style st => exact replaceP1_style st y hok hy
  | other t =>
    exact replaceP1_skip _ _
      (stripPre_none_within (by decide) (assLineOk_other hok).1 hy)

/-- The second rewrite on any single well-formed line. -/
theorem replaceP2_line (l : AssLine) (y : List Char) (hok : l.ok = true)
    (hy : y = [] ∨ y.head? = some nlC) :
    replaceP2 (l.render ++ y) = (lineP2 l).render ++ replaceP2 y := by
  cases l with
  | style st => exact replaceP2_style st y hok hy
  | other t =>
    exact replaceP2_skip _ _
      (stripPre_none_within (by decide) (assLineOk_other hok).1 hy)

/-- The third rewrite never fires on a well-formed line. -/
theorem replaceP3_line (l : AssLine) (y : List Char) (hok : l.ok = true)
    (hy : y = [] ∨ y.head? = some nlC) :
    replaceP3 (l.render ++ y) = l.render ++ replaceP3 y := by
  cases l with
  | style st =>
    exact replaceP3_skip _ _
      (stripPre_none_within (by decide) (styleRender_noPat3 hok) hy)
  | other t =>
    exact replaceP3_skip _ _
      (stripPre_none_within (by decide) (assLineOk_other hok).2.1 hy)

theorem replaceP1_doc : ∀ (doc : List AssLine), (∀ l ∈ doc, l.ok = true) →
    replaceP1 (renderDoc doc) = renderDoc (doc.map lineP1)
  | [], _ => by simp [renderDoc, replaceP1_nil]
  | [l], hok => by
    have h := replaceP1_line l [] (hok l (by simp)) (Or.inl rfl)
    simpa [renderDoc, replaceP1_nil] using h
  | l :: l2 :: rest, hok => by
    have h := replaceP1_line l (nlC :: renderDoc (l2 :: rest)) (hok l (by simp))
      (Or.inr rfl)
    have hnl : stripPre styleTag (nlC :: renderDoc (l2 :: rest)) = none := by
      rw [show styleTag = 'S' :: "tyle:".toList from rfl]
      exact stripPre_cons_ne (by decide)
    have ih := replaceP1_doc (l2 :: rest) (fun a ha => hok a (by simp [ha]))
    calc replaceP1 (renderDoc (l :: l2 :: rest))
        = replaceP1 (l.render ++ nlC :: renderDoc (l2 :: rest)) := rfl
      _ = (lineP1 l).render ++ replaceP1 (nlC :: renderDoc (l2 :: rest)) := h
      _ = (lineP1 l).render ++ nlC :: replaceP1 (renderDoc (l2 :: rest)) := by
          rw [replaceP1_cons_none hnl]
      _ = (lineP1 l).render ++ nlC :: renderDoc ((l2 :: rest).map lineP1) := by rw [ih]
      _ = renderDoc ((l :: l2 :: rest).map lineP1) := by simp [renderDoc]

theorem replaceP2_doc : ∀ (doc : List AssLine), (∀ l ∈ doc, l.ok = true) →
    replaceP2 (renderDoc doc) = renderDoc (doc.map lineP2)
  | [], _ => by simp [renderDoc, replaceP2_nil]
  | [l], hok => by
    have h := replaceP2_line l [] (hok l (by simp)) (Or.inl rfl)
    simpa [renderDoc, replaceP2_nil] using h
  | l :: l2 :: rest, hok => by
    have h := replaceP2_line l (nlC :: renderDoc (l2 :: rest)) (hok l (by simp))
      (Or.inr rfl)
    have hnl : stripPre styleTag (nlC :: renderDoc (l2 :: rest)) = none := by
      rw [show styleTag = 'S' :: "tyle:".toList from rfl]
      exact stripPre_cons_ne (by decide)
    have ih := replaceP2_doc (l2 :: rest) (fun a ha => hok a (by simp [ha]))
    calc replaceP2 (renderDoc (l :: l2 :: rest))
        = replaceP2 (l.render ++ nlC :: renderDoc (l2 :: rest)) := rfl
      _ = (lineP2 l).render ++ replaceP2 (nlC :: renderDoc (l2 :: rest)) := h
      _ = (lineP2 l).render ++ nlC :: replaceP2 (renderDoc (l2 :: rest)) := by
          rw [replaceP2_cons_none hnl]
      _ = (lineP2 l).render ++ nlC :: renderDoc ((l2 :: rest).map lineP2) := by rw [ih]
      _ = renderDoc ((l :: l2 :: rest).map lineP2) := by simp [renderDoc]

theorem replaceP3_doc : ∀ (doc : List AssLine), (∀ l ∈ doc, l.ok = true) →
    replaceP3 (renderDoc doc) = renderDoc doc
  | [], _ => by simp [renderDoc, replaceP3_nil]
  | [l], hok => by
    have h := replaceP3_line l [] (hok l (by simp)) (Or.inl rfl)
    simpa [renderDoc, replaceP3_nil] using h
  | l :: l2 :: rest, hok => by
    have h := replaceP3_line l (nlC :: renderDoc (l2 :: rest)) (hok l (by simp))
      (Or.inr rfl)
    have hnl : stripPre marginVTag (nlC :: renderDoc (l2 :: rest)) = none := by
      rw [show marginVTag = 'M' :: "arginV=".toList from rfl]
      exact stripPre_cons_ne (by decide)
    have ih := replaceP3_doc (l2 :: rest) (fun a ha => hok a (by simp [ha]))
    calc replaceP3 (renderDoc (l :: l2 :: rest))
        = replaceP3 (l.render ++ nlC :: renderDoc (l2 :: rest)) := rfl
      _ = l.render ++ replaceP3 (nlC :: renderDoc (l2 :: rest)) := h
      _ = l.render ++ nlC :: replaceP3 (renderDoc (l2 :: rest)) := by
          rw [replaceP3_cons_none hnl]
      _ = l.render ++ nlC :: renderDoc (l2 :: rest) := by rw [ih]
      _ = renderDoc (l :: l2 :: rest) := rfl

end VideoComposer
namespace VideoComposer

theorem numOK_newFontSize (d : List Char) : numOK (newFontSize d) = true := by
  simp only [numOK, newFontSize, Bool.and_eq_true, Bool.not_eq_true']
  constructor
  · cases he : natToDigits (min (digitsToNat d + 24) 120) with
    | nil => exact absurd he (natToDigits_ne_nil _)
    | cons a t => rfl
  · exact natToDigits_all_isDig _

theorem numOK_marginTarget : numOK marginTarget = true := by decide

theorem lineP1_ok {l : AssLine} (h : l.ok = true) : (lineP1 l).ok = true := by
  cases l with
  | other t => exact h
  | style st =>
    obtain ⟨h1, h2, h3, h4, h5, h6, h7, h8, h9, h10, h11, h12, h13, h14, h15, h16⟩ :=
      StyleLine.ok_iff.mp h
    exact StyleLine.ok_iff.mpr ⟨h1, h2, h3, numOK_newFontSize st.fontsize, h5, h6,
      h7, h8, h9, h10, h11, h12, h13, h14, h15, h16⟩

theorem lineP2_ok {l : AssLine} (h : l.ok = true) : (lineP2 l).ok = true := by
  cases l with
  | other t => exact h
  | style st =>
    obtain ⟨h1, h2, h3, h4, h5, h6, h7, h8, h9, h10, h11, h12, h13, h14, h15, h16⟩ :=
      StyleLine.ok_iff.mp h
    exact StyleLine.ok_iff.mpr ⟨h1, h2, h3, h4, h5, h6,
      h7, h8, h9, numOK_marginTarget, h11, h12, h13, h14, h15, h16⟩

/-- The combined per-line effect of one `modifyAssStyles` run on a
well-formed line: font size grown and capped, then ScaleY set to 260. -/
def docTrans (l : AssLine) : AssLine := lineP2 (lineP1 l)

theorem docTrans_ok {l : AssLine} (h : l.ok = true) : (docTrans l).ok = true :=
  lineP2_ok (lineP1_ok h)

/-- One run of `modifyAssStyles` on a well-formed document acts line by line:
pass 1 rewrites the font size, pass 2 rewrites ScaleY, pass 3 never fires. -/
theorem modifyAssStyles_doc (doc : List AssLine) (hok : ∀ l ∈ doc, l.ok = true) :
    modifyAssStyles (renderDoc doc) = renderDoc (doc.map docTrans) := by
  have hok1 : ∀ l ∈ doc.map lineP1, l.ok = true := by
    intro l hl
    obtain ⟨a, ha, rfl⟩ := List.mem_map.mp hl
    exact lineP1_ok (hok a ha)
  have hok2 : ∀ l ∈ (doc.map lineP1).map lineP2, l.ok = true := by
    intro l hl
    obtain ⟨a, ha, rfl⟩ := List.mem_map.mp hl
    exact lineP2_ok (hok1 a ha)
  calc modifyAssStyles (renderDoc doc)
      = replaceP3 (replaceP2 (replaceP1 (renderDoc doc))) := rfl
    _ = replaceP3 (replaceP2 (renderDoc (doc.map lineP1))) := by
        rw [replaceP1_doc doc hok]
    _ = replaceP3 (renderDoc ((doc.map lineP1).map lineP2)) := by
        rw [replaceP2_doc _ hok1]
    _ = renderDoc ((doc.map lineP1).map lineP2) := replaceP3_doc _ hok2
    _ = renderDoc (doc.map docTrans) := by
        rw [List.map_map]; rfl

end VideoComposer
namespace VideoComposer

theorem splitLines_nlfree {l : List Char} (hl : ∀ c ∈ l, c ≠ nlC) :
    splitLines l = [l] := by
  induction l with
  | nil => rfl
  | cons c cs ih =>
    have hc : ¬ c = nlC := hl c (by simp)
    rw [splitLines, if_neg hc, ih (fun d hd => hl d (by simp [hd]))]

theorem splitLines_nlfree_append {l rest : List Char} (hl : ∀ c ∈ l, c ≠ nlC) :
    splitLines (l ++ nlC :: rest) = l :: splitLines rest := by
  induction l with
  | nil => simp [splitLines]
  | cons c cs ih =>
    have hc : ¬ c = nlC := hl c (by simp)
    rw [List.cons_append, splitLines, if_neg hc,
      ih (fun d hd => hl d (by simp [hd]))]

theorem splitLines_renderDoc : ∀ (doc : List AssLine), doc ≠ [] →
    (∀ l ∈ doc, l.ok = true) →
    splitLines (renderDoc doc) = doc.map AssLine.render
  | [], h, _ => absurd rfl h
  | [l], _, hok => by
    rw [show renderDoc [l] = l.render from rfl,
      splitLines_nlfree (lineRender_no_nl (hok l (by simp)))]
    rfl
  | l :: l2 :: rest, _, hok => by
    rw [show renderDoc (l :: l2 :: rest) = l.render ++ nlC :: renderDoc (l2 :: rest) from rfl,
      splitLines_nlfree_append (lineRender_no_nl (hok l (by simp))),
      splitLines_renderDoc (l2 :: rest) (by simp) (fun a ha => hok a (by simp [ha]))]
    rfl

theorem splitFieldsC_nocomma {l : List Char} (hl : ∀ c ∈ l, c ≠ ',') :
    splitFieldsC l = [l] := by
  induction l with
  | nil => rfl
  | cons c cs ih =>
    have hc : ¬ c = ',' := hl c (by simp)
    rw [splitFieldsC, if_neg hc, ih (fun d hd => hl d (by simp [hd]))]

theorem splitFieldsC_field_append {l rest : List Char} (hl : ∀ c ∈ l, c ≠ ',') :
    splitFieldsC (l ++ ',' :: rest) = l :: splitFieldsC rest := by
  induction l with
  | nil => simp [splitFieldsC]
  | cons c cs ih =>
    have hc : ¬ c = ',' := hl c (by simp)
    rw [List.cons_append, splitFieldsC, if_neg hc,
      ih (fun d hd => hl d (by simp [hd]))]

theorem splitFieldsC_chunks {gs : List (List Char)} {z : List Char}
    (hgs : ∀ g ∈ gs, ∀ c ∈ g, c ≠ ',') :
    splitFieldsC (chunksRender gs ++ z) = gs ++ splitFieldsC z := by
  induction gs with
  | nil => simp [chunksRender]
  | cons g gs ih =>
    rw [chunksRender_cons, List.append_assoc, List.cons_append,
      splitFieldsC_field_append (hgs g (by simp)),
      ih (fun g2 hg2 => hgs g2 (by simp [hg2]))]
    rfl

/-- The comma-separated fields of a style line body, in V4+ order. -/
def StyleLine.fieldsList (st : StyleLine) : List (List Char) :=
  st.name :: st.fontname :: st.fontsize :: (st.colBoldItalic ++
    (st.underline :: st.strikeout :: st.scaleX :: st.scaleY ::
      (st.midFields ++ [st.marginL, st.marginR, st.marginV, st.encoding])))

theorem splitFieldsC_styleBody {st : StyleLine} (hok : st.ok = true) :
    splitFieldsC (st.name ++ ',' :: (st.fontname ++ ',' :: (st.fontsize ++ ',' ::
      afterSize st))) = st.fieldsList := by
  obtain ⟨h1, h2, h3, h4, h5, h6, h7, h8, h9, h10, h11, h12, h13, h14, h15, h16⟩ :=
    StyleLine.ok_iff.mp hok
  rw [splitFieldsC_field_append (fun c hc => (fieldOK_chars h1 c hc).1),
    splitFieldsC_field_append (fun c hc => (fieldOK_chars h2 c hc).1),
    splitFieldsC_field_append (fun c hc => (fieldOK_chars (numOK_fieldOK h4) c hc).1),
    afterSize,
    splitFieldsC_chunks (fun g hg c hc => (fieldOK_chars (h6 g hg) c hc).1),
    splitFieldsC_field_append (fun c hc => (fieldOK_chars h7 c hc).1),
    splitFieldsC_field_append (fun c hc => (fieldOK_chars (numOK_fieldOK h8) c hc).1),
    splitFieldsC_field_append (fun c hc => (fieldOK_chars (numOK_fieldOK h9) c hc).1),
    splitFieldsC_field_append (fun c hc => (fieldOK_chars (numOK_fieldOK h10) c hc).1),
    tailFields,
    splitFieldsC_chunks (fun g hg c hc => (fieldOK_chars (h12 g hg) c hc).1),
    splitFieldsC_field_append (fun c hc => (fieldOK_chars h13 c hc).1),
    splitFieldsC_field_append (fun c hc => (fieldOK_chars h14 c hc).1),
    splitFieldsC_field_append (fun c hc => (fieldOK_chars h15 c hc).1),
    splitFieldsC_nocomma (fun c hc => (fieldOK_chars h16 c hc).1)]
  rfl

/-- The `i`-th field a well-formed line contributes to `styleFieldAt`. -/
def lineFieldAt (i : ℕ) : AssLine → Option (List Char)
  | AssLine.style st => st.fieldsList.get? i
  | AssLine.other _ => none

theorem styleFieldAt_renderDoc (i : ℕ) (doc : List AssLine)
    (hok : ∀ l ∈ doc, l.ok = true) :
    styleFieldAt i (renderDoc doc) = doc.filterMap (lineFieldAt i) := by
  cases doc with
  | nil =>
    rw [show renderDoc [] = [] from rfl]
    rfl
  | cons l rest =>
    rw [styleFieldAt, splitLines_renderDoc (l :: rest) (by simp) hok,
      List.filterMap_map]
    refine List.filterMap_congr ?_
    intro a ha
    cases a with
    | other t =>
      have hnone : stripPre styleTag t = none :=
        hasPat_stripPre_none (assLineOk_other (hok _ ha)).1
      simp [AssLine.render, Function.comp, hnone, lineFieldAt]
    | style st =>
      have hsome : stripPre styleTag (AssLine.render (AssLine.style st)) =
          some (st.name ++ ',' :: (st.fontname ++ ',' :: (st.fontsize ++ ',' ::
            afterSize st))) := stripPre_prefix _ _
      simp [Function.comp, hsome, splitFieldsC_styleBody (hok _ ha), lineFieldAt]

end VideoComposer
namespace VideoComposer

theorem fieldsList_get_fontsize (st : StyleLine) :
    st.fieldsList.get? 2 = some st.fontsize := rfl

theorem fieldsList_get_late (st : StyleLine) (h6 : st.colBoldItalic.length = 6)
    (h6b : st.midFields.length = 6) :
    st.fieldsList.get? 9 = some st.underline ∧
    st.fieldsList.get? 19 = some st.marginL ∧
    st.fieldsList.get? 20 = some st.marginR ∧
    st.fieldsList.get? 21 = some st.marginV := by
  have e9 : st.fieldsList.get? 9 = (st.colBoldItalic ++
      (st.underline :: st.strikeout :: st.scaleX :: st.scaleY ::
        (st.midFields ++ [st.marginL, st.marginR, st.marginV, st.encoding]))).get? 6 := rfl
  have elate : ∀ k, (st.colBoldItalic ++
      (st.underline :: st.strikeout :: st.scaleX :: st.scaleY ::
        (st.midFields ++ [st.marginL, st.marginR, st.marginV, st.encoding]))).get? (6 + k) =
      (st.underline :: st.strikeout :: st.scaleX :: st.scaleY ::
        (st.midFields ++ [st.marginL, st.marginR, st.marginV, st.encoding])).get? k := by
    intro k
    rw [List.get?_append_right (by omega), h6]
    congr 1
    omega
  have emid : ∀ k, (st.midFields ++
      [st.marginL, st.marginR, st.marginV, st.encoding]).get? (6 + k) =
      [st.marginL, st.marginR, st.marginV, st.encoding].get? k := by
    intro k
    rw [List.get?_append_right (by omega), h6b]
    congr 1
    omega
  refine ⟨?_, ?_, ?_, ?_⟩
  · rw [e9, show (6 : ℕ) = 6 + 0 from rfl, elate]
    rfl
  · rw [show st.fieldsList.get? 19 = (st.colBoldItalic ++
        (st.underline :: st.strikeout :: st.scaleX :: st.scaleY ::
          (st.midFields ++ [st.marginL, st.marginR, st.marginV, st.encoding]))).get? 16 from rfl,
      show (16 : ℕ) = 6 + 10 from rfl, elate]
    show (st.midFields ++ [st.marginL, st.marginR, st.marginV, st.encoding]).get? 6 =
      some st.marginL
    rw [show (6 : ℕ) = 6 + 0 from rfl, emid]
    rfl
  · rw [show st.fieldsList.get? 20 = (st.colBoldItalic ++
        (st.underline :: st.strikeout :: st.scaleX :: st.scaleY ::
          (st.midFields ++ [st.marginL, st.marginR, st.marginV, st.encoding]))).get? 17 from rfl,
      show (17 : ℕ) = 6 + 11 from rfl, elate]
    show (st.midFields ++ [st.marginL, st.marginR, st.marginV, st.encoding]).get? 7 =
      some st.marginR
    rw [show (7 : ℕ) = 6 + 1 from rfl, emid]
    rfl
  · rw [show st.fieldsList.get? 21 = (st.colBoldItalic ++
        (st.underline :: st.strikeout :: st.scaleX :: st.scaleY ::
          (st.midFields ++ [st.marginL, st.marginR, st.marginV, st.encoding]))).get? 18 from rfl,
      show (18 : ℕ) = 6 + 12 from rfl, elate]
    show (st.midFields ++ [st.marginL, st.marginR, st.marginV, st.encoding]).get? 8 =
      some st.marginV
    rw [show (8 : ℕ) = 6 + 2 from rfl, emid]
    rfl

end VideoComposer
namespace VideoComposer

theorem docTrans_style (st : StyleLine) :
    docTrans (AssLine.style st) =
      AssLine.style { st with fontsize := newFontSize st.fontsize,
                              scaleY := marginTarget } := rfl

theorem docTrans_other (t : List Char) :
    docTrans (AssLine.other t) = AssLine.other t := rfl

/-- The per-line transform keeps the underline and margin fields. -/
theorem lineFieldAt_docTrans_stable {l : AssLine} (hok : l.ok = true) :
    lineFieldAt 9 (docTrans l) = lineFieldAt 9 l ∧
    lineFieldAt 19 (docTrans l) = lineFieldAt 19 l ∧
    lineFieldAt 20 (docTrans l) = lineFieldAt 20 l ∧
    lineFieldAt 21 (docTrans l) = lineFieldAt 21 l := by
  cases l with
  | other t => exact ⟨rfl, rfl, rfl, rfl⟩
  | style st =>
    obtain ⟨-, -, -, -, h5, -, -, -, -, -, h11, -, -, -, -, -⟩ :=
      StyleLine.ok_iff.mp hok
    rw [docTrans_style]
    obtain ⟨e9, e19, e20, e21⟩ := fieldsList_get_late st h5 h11
    obtain ⟨f9, f19, f20, f21⟩ := fieldsList_get_late
      { st with fontsize := newFontSize st.fontsize, scaleY := marginTarget } h5 h11
    refine ⟨?_, ?_, ?_, ?_⟩ <;> simp only [lineFieldAt]
    · rw [f9, e9]
    · rw [f19, e19]
    · rw [f20, e20]
    · rw [f21, e21]

theorem digitsToNat_newFontSize_le (d : List Char) :
    digitsToNat (newFontSize d) ≤ 120 := by
  rw [newFontSize, digitsToNat_natToDigits]
  exact min_le_right _ _

theorem lineFieldAt2_docTrans {l : AssLine} {f : List Char}
    (h : lineFieldAt 2 (docTrans l) = some f) : ∃ d, f = newFontSize d := by
  cases l with
  | other t =>
    rw [docTrans_other] at h
    exact absurd h (by simp [lineFieldAt])
  | style st =>
    rw [docTrans_style] at h
    simp only [lineFieldAt, fieldsList_get_fontsize] at h
    injection h with h
    exact ⟨st.fontsize, h.symm⟩

end VideoComposer
namespace VideoComposer

/-- C7 (amended): on documents of well-formed lines — standard 23-field V4+
`Style:` lines with numeric Fontsize/StrikeOut/ScaleX/ScaleY and fields free
of comma, line break, colon and equals sign, and other lines containing no
`Style:` or `MarginV=` occurrence — a second application of
`modifyAssStyles` leaves the underline field and the MarginL, MarginR and
MarginV fields of every style line exactly as the first application left
them, and every font-size field of the twice-rewritten document is at most
the cap 120. -/
theorem c7_amended_idempotent (doc : List AssLine)
    (hok : ∀ l ∈ doc, l.ok = true) :
    underlineFields (modifyAssStyles (modifyAssStyles (renderDoc doc))) =
      underlineFields (modifyAssStyles (renderDoc doc)) ∧
    marginLFields (modifyAssStyles (modifyAssStyles (renderDoc doc))) =
      marginLFields (modifyAssStyles (renderDoc doc)) ∧
    marginRFields (modifyAssStyles (modifyAssStyles (renderDoc doc))) =
      marginRFields (modifyAssStyles (renderDoc doc)) ∧
    marginVFields (modifyAssStyles (modifyAssStyles (renderDoc doc))) =
      marginVFields (modifyAssStyles (renderDoc doc)) ∧
    ∀ f ∈ fontsizeFields (modifyAssStyles (modifyAssStyles (renderDoc doc))),
      digitsToNat f ≤ 120 := by
  have hok1 : ∀ l ∈ doc.map docTrans, l.ok = true := by
    intro l hl
    obtain ⟨a, ha, rfl⟩ := List.mem_map.mp hl
    exact docTrans_ok (hok a ha)
  have honce : modifyAssStyles (renderDoc doc) = renderDoc (doc.map docTrans) :=
    modifyAssStyles_doc doc hok
  have htwice : modifyAssStyles (modifyAssStyles (renderDoc doc)) =
      renderDoc ((doc.map docTrans).map docTrans) := by
    rw [honce]
    exact modifyAssStyles_doc _ hok1
  have hstable : ∀ i, (∀ l, l.ok = true →
      lineFieldAt i (docTrans l) = lineFieldAt i l) →
      styleFieldAt i (renderDoc ((doc.map docTrans).map docTrans)) =
        styleFieldAt i (renderDoc (doc.map docTrans)) := by
    intro i hi
    rw [styleFieldAt_renderDoc i _ (fun l hl => by
        obtain ⟨a, ha, rfl⟩ := List.mem_map.mp hl
        exact docTrans_ok (hok1 a ha)),
      styleFieldAt_renderDoc i _ hok1, List.filterMap_map]
    exact List.filterMap_congr (fun a ha => hi a (hok1 a ha))
  refine ⟨?_, ?_, ?_, ?_, ?_⟩
  · rw [htwice, honce]
    exact hstable 9 (fun l hl => (lineFieldAt_docTrans_stable hl).1)
  · rw [htwice, honce]
    exact hstable 19 (fun l hl => (lineFieldAt_docTrans_stable hl).2.1)
  · rw [htwice, honce]
    exact hstable 20 (fun l hl => (lineFieldAt_docTrans_stable hl).2.2.1)
  · rw [htwice, honce]
    exact hstable 21 (fun l hl => (lineFieldAt_docTrans_stable hl).2.2.2)
  · intro f hf
    rw [htwice] at hf
    rw [fontsizeFields, styleFieldAt_renderDoc 2 _ (fun l hl => by
        obtain ⟨a, ha, rfl⟩ := List.mem_map.mp hl
        exact docTrans_ok (hok1 a ha)),
      List.filterMap_map] at hf
    obtain ⟨a, ha, hfa⟩ := List.mem_filterMap.mp hf
    obtain ⟨d, rfl⟩ := lineFieldAt2_docTrans hfa
    exact digitsToNat_newFontSize_le d

end VideoComposer
namespace VideoComposer

/-- A concrete standard V4+ style line (the usual Arial default). -/
def c7WitStyle : StyleLine :=
  { name := r"Default".toList
    fontname := r"Arial".toList
    fontsize := r"48".toList
    colBoldItalic := [r"&H00FFFFFF".toList, r"&H000000FF".toList,
      r"&H00000000".toList, r"&H00000000".toList, r"0".toList, r"0".toList]
    underline := r"-1".toList
    strikeout := r"0".toList
    scaleX := r"100".toList
    scaleY := r"100".toList
    midFields := [r"0".toList, r"0".toList, r"1".toList, r"2".toList,
      r"2".toList, r"2".toList]
    marginL := r"10".toList
    marginR := r"10".toList
    marginV := r"40".toList
    encoding := r"1".toList }

/-- A concrete two-line well-formed document: a section header and a style. -/
def c7WitDoc : List AssLine :=
  [AssLine.other (r"[V4+ Styles]".toList), AssLine.style c7WitStyle]

theorem c7_amended_idempotent_witness :
    (∀ l ∈ c7WitDoc, l.ok = true) ∧
    (underlineFields (modifyAssStyles (modifyAssStyles (renderDoc c7WitDoc))) =
      underlineFields (modifyAssStyles (renderDoc c7WitDoc)) ∧
    marginLFields (modifyAssStyles (modifyAssStyles (renderDoc c7WitDoc))) =
      marginLFields (modifyAssStyles (renderDoc c7WitDoc)) ∧
    marginRFields (modifyAssStyles (modifyAssStyles (renderDoc c7WitDoc))) =
      marginRFields (modifyAssStyles (renderDoc c7WitDoc)) ∧
    marginVFields (modifyAssStyles (modifyAssStyles (renderDoc c7WitDoc))) =
      marginVFields (modifyAssStyles (renderDoc c7WitDoc)) ∧
    ∀ f ∈ fontsizeFields (modifyAssStyles (modifyAssStyles (renderDoc c7WitDoc))),
      digitsToNat f ≤ 120) :=
  ⟨by decide, c7_amended_idempotent c7WitDoc (by decide)⟩

end VideoComposer
